import Mathlib

/-!
Verification development for the agent message broker, event bus and
connection manager of the collaborative-editing repository.

The Python modules `src/core/agent_base.py`, `src/core/message_broker.py`,
`src/core/event_bus.py` and `src/api/websocket.py` are shallowly embedded:
dictionaries become association lists, Python sets become duplicate-free
lists, asynchronous delivery becomes explicit state passing, and the
outgoing writes that a call performs are returned as explicit lists.
Wall-clock timestamps, logging calls and the broker message log are side
bookkeeping that no property below depends on and are omitted.
-/

namespace Spec2Proof

/-! ### Association-list helpers (Python dict as a key-value list) -/

/-- Lookup of a key in an association list (first match, as in a dict). -/
def alookup {κ α : Type} [DecidableEq κ] : List (κ × α) → κ → Option α
  | [], _ => none
  | (k, v) :: rest, key => if k = key then some v else alookup rest key

/-- Update the value at a key in place (first match); no-op when absent. -/
def aupdate {κ α : Type} [DecidableEq κ] (f : α → α) : List (κ × α) → κ → List (κ × α)
  | [], _ => []
  | (k, v) :: rest, key =>
      if k = key then (k, f v) :: rest else (k, v) :: aupdate f rest key

/-- Remove a key from an association list (first match), as dict pop. -/
def aerase {κ α : Type} [DecidableEq κ] : List (κ × α) → κ → List (κ × α)
  | [], _ => []
  | (k, v) :: rest, key => if k = key then rest else (k, v) :: aerase rest key

/-! ### `src/core/agent_base.py` : MessageType and AgentMessage -/

/-- The `MessageType` enum of `agent_base.py`, constructor for constructor. -/
inductive MessageType
  | USER_REGISTER | USER_LOGIN | USER_LOGOUT | USER_UPDATE_PROFILE
  | USER_GET_PROFILE | USER_DELETE
  | DOC_CREATE | DOC_READ | DOC_UPDATE | DOC_DELETE | DOC_LIST
  | DOC_COLLABORATE | DOC_TRACK_CHANGE
  | VERSION_CREATE | VERSION_GET_HISTORY | VERSION_REVERT | VERSION_COMPARE
  | VERSION_GET_CONTRIBUTIONS
  | RESPONSE | ERROR | BROADCAST | HEARTBEAT
  deriving DecidableEq, Repr, Fintype

/-- The `AgentMessage` dataclass. The heterogeneous `payload` dict is
embedded as a string-to-string association list (every payload value a
claim touches is printable); the `timestamp` field is bookkeeping no
routing decision reads and is omitted. -/
structure AgentMessage where
  type : MessageType
  sender : String
  recipient : String
  payload : List (String × String)
  id : String
  correlation_id : Option String
  priority : Int
  deriving DecidableEq, Repr

/-- `AgentMessage.create_response`: a reply with swapped sender/recipient,
correlated to the original by its `id`, typed `RESPONSE` on success and
`ERROR` on failure. The Python code draws a fresh uuid4 for the new `id`;
the nondeterministic draw is passed in as `freshId`. -/
def AgentMessage.create_response (self : AgentMessage) (payload : List (String × String))
    (success : Bool) (freshId : String) : AgentMessage :=
  { type := if success then MessageType.RESPONSE else MessageType.ERROR
    sender := self.recipient
    recipient := self.sender
    payload := payload
    id := freshId
    correlation_id := some self.id
    priority := 0 }

/-! ### `src/core/message_broker.py` : broker state and routing -/

/-- Broker state: the agent registry with each inbound queue
(`_agents` plus each agent `_message_queue`), the keys of
`_pending_requests`, and the `_subscribers` capability index. -/
structure BrokerState where
  agents : List (String × List AgentMessage)
  pending_requests : List String
  subscribers : List (MessageType × List String)
  deriving DecidableEq, Repr

/-- The registered agent ids, in registration order. -/
def agentIds (st : BrokerState) : List String :=
  st.agents.map Prod.fst

/-- Append a message to the inbound queue of one agent
(`Agent.receive_message` reached through the registry). -/
def enqueueTo (agents : List (String × List AgentMessage)) (target : String)
    (m : AgentMessage) : List (String × List AgentMessage) :=
  aupdate (fun q => q ++ [m]) agents target

/-- Python truthiness of `message.correlation_id`: `None` and the empty
string are falsy. -/
def correlationKey (m : AgentMessage) : Option String :=
  match m.correlation_id with
  | some c => if c = "" then none else some c
  | none => none

/-- The guard of the first routing branch of `route_message`: the message
type is `RESPONSE` or `ERROR`, the correlation id is truthy, and it is a
key of `_pending_requests`. Returns the matched key. -/
def corrHit (st : BrokerState) (m : AgentMessage) : Option String :=
  if m.type = MessageType.RESPONSE ∨ m.type = MessageType.ERROR then
    match correlationKey m with
    | some c => if c ∈ st.pending_requests then some c else none
    | none => none
  else none

/-- The queue updates `MessageBroker._broadcast` performs: the message is
appended to the queue of every registered agent other than the sender. -/
def broadcastEnqueue (agents : List (String × List AgentMessage)) (m : AgentMessage) :
    List (String × List AgentMessage) :=
  agents.map (fun p => if p.1 = m.sender then p else (p.1, p.2 ++ [m]))

/-- What one `route_message` call did, branch for branch. -/
inductive RouteEffect
  | resolvedPending (key : String) (msg : AgentMessage)
  | broadcasted
  | delivered (target : String)
  | deliveredByCapability (target : String)
  | dropped
  deriving DecidableEq, Repr

/-- `MessageBroker.route_message`, branch for branch:
1. a `RESPONSE`/`ERROR` whose truthy correlation id is pending pops that
   entry and resolves its future with the message (the `resolvedPending`
   effect records the `future.set_result` call), touching no queue;
2. else recipient `"broadcast"` appends the message to the queue of every
   registered agent other than the sender (`_broadcast`);
3. else a registered recipient gets the message appended to its queue;
4. else a capability entry for the type routes to its first listed agent
   id, provided that id is registered;
5. else the message is dropped (`logger.warning`, no effect). -/
def route_message (st : BrokerState) (m : AgentMessage) : BrokerState × RouteEffect :=
  match corrHit st m with
  | some c =>
      ({ st with pending_requests := st.pending_requests.erase c },
       RouteEffect.resolvedPending c m)
  | none =>
      if m.recipient = "broadcast" then
        ({ st with agents := broadcastEnqueue st.agents m },
         RouteEffect.broadcasted)
      else if (alookup st.agents m.recipient).isSome then
        ({ st with agents := enqueueTo st.agents m.recipient m },
         RouteEffect.delivered m.recipient)
      else
        match alookup st.subscribers m.type with
        | some (h :: _) =>
            if (alookup st.agents h).isSome then
              ({ st with agents := enqueueTo st.agents h m },
               RouteEffect.deliveredByCapability h)
            else (st, RouteEffect.dropped)
        | _ => (st, RouteEffect.dropped)

/-- The targets `MessageBroker._broadcast` builds delivery tasks for:
every registered agent id other than the sender. -/
def broadcastTargets (st : BrokerState) (m : AgentMessage) : List String :=
  (agentIds st).filter (fun a => a ≠ m.sender)

/-- The `asyncio.gather(*tasks, return_exceptions=True)` of `_broadcast`:
every task runs to completion and its outcome is recorded instead of
aborting the group. `fail` says which individual deliveries raise; the
result pairs each target with whether its own delivery succeeded. -/
def broadcastGather (fail : String → Bool) (st : BrokerState) (m : AgentMessage) :
    List (String × Bool) :=
  (broadcastTargets st m).map (fun a => (a, ! fail a))

/-- The waiting phase of `MessageBroker.request`: the future keyed `mid`
is awaited while further messages (`arrivals`) are routed through the
broker. The first routed message that resolves the `mid` entry fulfils
the future; exhausting the arrivals is the `asyncio.TimeoutError` branch,
which pops the pending entry and returns `none`. -/
def awaitLoop (st : BrokerState) (mid : String) :
    List AgentMessage → Option AgentMessage × BrokerState
  | [] => (none, { st with pending_requests := st.pending_requests.erase mid })
  | r :: rest =>
      match route_message st r with
      | (st3, RouteEffect.resolvedPending k v) =>
          if k = mid then (some v, st3) else awaitLoop st3 mid rest
      | (st3, _) => awaitLoop st3 mid rest

/-- `MessageBroker.request`: store a fresh future under `message.id`,
route the request itself (which may already resolve a future), then
await. `arrivals` are the messages routed while waiting; the timeout
branch returns `none` after popping the pending entry. -/
def request (st : BrokerState) (m : AgentMessage) (arrivals : List AgentMessage) :
    Option AgentMessage × BrokerState :=
  let st1 : BrokerState := { st with pending_requests := m.id :: st.pending_requests }
  match route_message st1 m with
  | (st2, RouteEffect.resolvedPending k v) =>
      if k = m.id then (some v, st2) else awaitLoop st2 m.id arrivals
  | (st2, _) => awaitLoop st2 m.id arrivals

/-- `Agent.send_message`. The `Except` layer is the Python exception
channel. The source guards on `self._message_broker`: with a broker it
routes; with none it only calls `logger.error` and returns `None`, so the
embedding returns `Except.ok none` there, never `Except.error`. -/
def send_message (broker : Option BrokerState) (m : AgentMessage) :
    Except String (Option (BrokerState × RouteEffect)) :=
  match broker with
  | some st => Except.ok (some (route_message st m))
  | none => Except.ok none

/-! ### `src/core/agent_base.py` : the agent processing loop -/

/-- A registered handler, as invoked by `Agent._process_messages`:
it either raises (`Except.error`, the caught exception text) or returns a
value that is forwarded when it is a truthy `AgentMessage`
(`some reply`) and ignored otherwise (`none`). -/
def HandlerFn : Type := AgentMessage → Except String (Option AgentMessage)

/-- The body of `Agent._process_messages`, run over the FIFO inbound
queue. `handlers` is the `_handlers` dict, `fresh` supplies the uuid4
draws for synthesized error responses (`k` counts the draws made so
far). Returns the queue in handling order paired with the messages the
loop passed to `send_message`: a handler reply is sent as is; a raising
handler is answered by `create_response` of the failed message with
`success=False`; an absent handler only logs. The loop then continues
with the next queued message in every case. -/
def _process_messages (handlers : MessageType → Option HandlerFn)
    (fresh : Nat → String) :
    List AgentMessage → Nat → List AgentMessage × List AgentMessage
  | [], _ => ([], [])
  | m :: rest, k =>
      match handlers m.type with
      | none =>
          let done := _process_messages handlers fresh rest k
          (m :: done.1, done.2)
      | some h =>
          match h m with
          | Except.ok none =>
              let done := _process_messages handlers fresh rest k
              (m :: done.1, done.2)
          | Except.ok (some result) =>
              let done := _process_messages handlers fresh rest k
              (m :: done.1, result :: done.2)
          | Except.error e =>
              let errResp := m.create_response [("error", e), ("success", "False")]
                false (fresh k)
              let done := _process_messages handlers fresh rest (k + 1)
              (m :: done.1, errResp :: done.2)

/-! ### `src/core/event_bus.py` : events, subscriptions, history -/

/-- The `EventType` enum of `event_bus.py`. -/
inductive EventType
  | USER_JOINED | USER_LEFT | USER_UPDATED
  | DOCUMENT_CREATED | DOCUMENT_UPDATED | DOCUMENT_DELETED
  | CURSOR_MOVED | SELECTION_CHANGED
  | EDIT_STARTED | EDIT_COMPLETED | CONFLICT_DETECTED | SYNC_REQUIRED
  | VERSION_CREATED | VERSION_REVERTED
  | SYSTEM_MESSAGE | ERROR
  deriving DecidableEq, Repr

/-- The `Event` dataclass; `data` as a printable association list and the
`timestamp` bookkeeping omitted, as for `AgentMessage`. -/
structure Event where
  event_type : EventType
  data : List (String × String)
  user_id : Option String
  document_id : Option String
  deriving DecidableEq, Repr

/-- `EventBus` state. Python callback objects are identified by tokens
(`Nat`): Python compares callbacks by object identity, which equality of
tokens mirrors. `_document_subscribers` values are Python sets, kept as
duplicate-free lists; `_subscribers` and `_global_subscribers` are lists
and may hold a callback several times. -/
structure EventBusState where
  _subscribers : List (EventType × List Nat)
  _document_subscribers : List (String × List Nat)
  _global_subscribers : List Nat
  _event_history : List Event
  deriving DecidableEq, Repr

/-- The `_max_history` capacity set in `EventBus.__init__`. -/
def eventBusMaxHistory : Nat := 1000

/-- `EventBus.subscribe`: create the type entry when absent, then append
the callback to its list. -/
def subscribe (bus : EventBusState) (event_type : EventType) (callback : Nat) :
    EventBusState :=
  let subs := if (alookup bus._subscribers event_type).isSome
    then bus._subscribers else bus._subscribers ++ [(event_type, [])]
  { bus with _subscribers := aupdate (fun l => l ++ [callback]) subs event_type }

/-- The unsubscribe closure returned by `EventBus.subscribe`: remove the
first occurrence of the callback from the type entry, when present. -/
def unsubscribeType (bus : EventBusState) (event_type : EventType) (callback : Nat) :
    EventBusState :=
  { bus with _subscribers := aupdate (fun l => l.erase callback) bus._subscribers event_type }

/-- `EventBus.subscribe_to_document`: create the document entry when
absent, then `set.add` the callback (a no-op when already present). -/
def subscribe_to_document (bus : EventBusState) (document_id : String) (callback : Nat) :
    EventBusState :=
  let subs := if (alookup bus._document_subscribers document_id).isSome
    then bus._document_subscribers else bus._document_subscribers ++ [(document_id, [])]
  { bus with _document_subscribers :=
      aupdate (fun l => if callback ∈ l then l else l ++ [callback]) subs document_id }

/-- The unsubscribe closure returned by `subscribe_to_document`:
`set.discard` the callback, then delete the document entry when the set
became empty. -/
def unsubscribeDocument (bus : EventBusState) (document_id : String) (callback : Nat) :
    EventBusState :=
  match alookup bus._document_subscribers document_id with
  | none => bus
  | some l =>
      let l2 := l.erase callback
      { bus with _document_subscribers :=
          if l2 = [] then aerase bus._document_subscribers document_id
          else aupdate (fun _ => l2) bus._document_subscribers document_id }

/-- `EventBus.subscribe_all`: append to the global list. -/
def subscribe_all (bus : EventBusState) (callback : Nat) : EventBusState :=
  { bus with _global_subscribers := bus._global_subscribers ++ [callback] }

/-- The unsubscribe closure returned by `subscribe_all`. -/
def unsubscribeAll (bus : EventBusState) (callback : Nat) : EventBusState :=
  { bus with _global_subscribers := bus._global_subscribers.erase callback }

/-- Python list slice `l[-n:]`, exactly: `-0` is `0`, so capacity zero
keeps the whole list; otherwise the last `n` elements. -/
def pySliceLast (n : Nat) (l : List Event) : List Event :=
  if n = 0 then l else l.drop (l.length - n)

/-- The history step of `EventBus.publish`: append the event, then trim
to the last `_max_history` entries when the bound is exceeded. -/
def publishHistory (maxHistory : Nat) (hist : List Event) (e : Event) : List Event :=
  let h2 := hist ++ [e]
  if maxHistory < h2.length then pySliceLast maxHistory h2 else h2

/-- The `_event_history` after publishing `events` in order from an empty
bus. -/
def publishAll (maxHistory : Nat) (events : List Event) : List Event :=
  events.foldl (publishHistory maxHistory) []

/-- The `callbacks_to_call` list a `publish` builds: subscribers to the
event type, then subscribers to its truthy `document_id`, then global
subscribers. Each is then invoked inside its own try/except, so
membership in this list is exactly "receives the event". -/
def callbacksToCall (bus : EventBusState) (e : Event) : List Nat :=
  ((alookup bus._subscribers e.event_type).getD [])
    ++ (match e.document_id with
        | some d => if d = "" then [] else (alookup bus._document_subscribers d).getD []
        | none => [])
    ++ bus._global_subscribers

/-! ### `src/api/websocket.py` : the connection / room registry -/

/-- One JSON payload pushed over a live connection: the receiving user,
the payload `type` tag, the user the payload is about, and the document
it concerns (empty when not applicable). Remaining payload fields
(usernames, member snapshots, cursor data) decide no claim and are
projected away. -/
structure WsSend where
  target : String
  mtype : String
  subject : String
  doc : String
  deriving DecidableEq, Repr

/-- `WebSocketManager` state: the keys of `_connections` (the stored
socket handles are opaque), `_document_rooms` with each member set as a
duplicate-free list, and `_user_info` reduced to the username. -/
structure WSState where
  _connections : List String
  _document_rooms : List (String × List String)
  _user_info : List (String × String)
  deriving DecidableEq, Repr

/-- `WebSocketManager._send_to_user`: the payload goes out only when the
user has a registered live connection. -/
def sendToUser (conns : List String) (uid mtype subject doc : String) : List WsSend :=
  if uid ∈ conns then [⟨uid, mtype, subject, doc⟩] else []

/-- `WebSocketManager._broadcast_to_document`: no room, no sends;
otherwise one send per current room member other than `exclude`. -/
def broadcastToDocument (conns : List String) (rooms : List (String × List String))
    (doc mtype subject : String) (exclude : Option String) : List WsSend :=
  match alookup rooms doc with
  | none => []
  | some members =>
      (members.filter (fun u => some u ≠ exclude)).flatMap
        (fun u => sendToUser conns u mtype subject doc)

/-- `WebSocketManager.connect`: register the connection and the user
info, then send the welcome payload on that connection only. -/
def connect (st : WSState) (user_id username : String) : WSState × List WsSend :=
  let conns := if user_id ∈ st._connections then st._connections
    else st._connections ++ [user_id]
  let info := if (alookup st._user_info user_id).isSome
    then aupdate (fun _ => username) st._user_info user_id
    else st._user_info ++ [(user_id, username)]
  (⟨conns, st._document_rooms, info⟩, sendToUser conns user_id "connected" user_id "")

/-- The room sweep of `WebSocketManager.disconnect`, room by room in
index order: a room holding the user has the user discarded, the
remaining members (minus the excluded leaver) are notified with a
`user_left` payload, and the room is deleted when it became empty; other
rooms are untouched. -/
def disconnectRooms (conns : List String) (uid : String) :
    List (String × List String) → List (String × List String) × List WsSend
  | [] => ([], [])
  | (d, ms) :: rest =>
      if uid ∈ ms then
        let ms2 := ms.erase uid
        let sends := (ms2.filter (fun u => u ≠ uid)).flatMap
          (fun u => sendToUser conns u "user_left" uid d)
        let done := disconnectRooms conns uid rest
        (if ms2 = [] then done.1 else (d, ms2) :: done.1, sends ++ done.2)
      else
        let done := disconnectRooms conns uid rest
        ((d, ms) :: done.1, done.2)

/-- `WebSocketManager.disconnect`: sweep every room, then pop the
connection and the user info (`dict.pop` with a default: absent keys are
a no-op and nothing is raised). -/
def disconnect (st : WSState) (uid : String) : WSState × List WsSend :=
  let rs := disconnectRooms st._connections uid st._document_rooms
  (⟨st._connections.erase uid, rs.1, aerase st._user_info uid⟩, rs.2)

/-- `WebSocketManager.join_document`: create the room when absent, add
the user to its member set, notify the other members with `user_joined`,
and send the joining user the `room_info` snapshot. -/
def join_document (st : WSState) (uid doc : String) : WSState × List WsSend :=
  let rooms1 := if (alookup st._document_rooms doc).isSome then st._document_rooms
    else st._document_rooms ++ [(doc, [])]
  let rooms2 := aupdate (fun ms => if uid ∈ ms then ms else ms ++ [uid]) rooms1 doc
  let sends1 := broadcastToDocument st._connections rooms2 doc "user_joined" uid (some uid)
  let sends2 := sendToUser st._connections uid "room_info" uid doc
  (⟨st._connections, rooms2, st._user_info⟩, sends1 ++ sends2)

/-- `WebSocketManager.leave_document`: with the room present, discard
the user, notify every remaining member with `user_left` (no exclusion),
and delete the room when it became empty; without the room, a no-op. -/
def leave_document (st : WSState) (uid doc : String) : WSState × List WsSend :=
  match alookup st._document_rooms doc with
  | none => (st, [])
  | some ms =>
      let ms2 := ms.erase uid
      let roomsMid := aupdate (fun _ => ms2) st._document_rooms doc
      let sends := broadcastToDocument st._connections roomsMid doc "user_left" uid none
      let rooms2 := if ms2 = [] then aerase st._document_rooms doc else roomsMid
      (⟨st._connections, rooms2, st._user_info⟩, sends)

/-- Claimed registry invariant, first part: a user appears in a room
member set only while it has a live connection. -/
def roomsConnected (st : WSState) : Prop :=
  ∀ d ms, (d, ms) ∈ st._document_rooms → ∀ u ∈ ms, u ∈ st._connections

/-- Claimed registry invariant, second part: no room with zero members
stays in the room index. -/
def noEmptyRooms (st : WSState) : Prop :=
  ∀ d ms, (d, ms) ∈ st._document_rooms → ms ≠ []

/-- Structural well-formedness carried by the Python data: room member
sets hold no duplicates. -/
def membersNodup (st : WSState) : Prop :=
  ∀ d ms, (d, ms) ∈ st._document_rooms → ms.Nodup

/-- The registry invariant of the spec plus the set-ness of members. -/
def WSInv (st : WSState) : Prop :=
  roomsConnected st ∧ noEmptyRooms st ∧ membersNodup st

/-! ### Association-list lemmas -/

theorem alookup_append {κ α : Type} [DecidableEq κ] (l₁ l₂ : List (κ × α)) (k : κ) :
    alookup (l₁ ++ l₂) k =
      match alookup l₁ k with
      | some v => some v
      | none => alookup l₂ k := by
  induction l₁ with
  | nil => simp [alookup]
  | cons p rest ih =>
      obtain ⟨k', v'⟩ := p
      by_cases h : k' = k
      · simp [alookup, h]
      · simp [alookup, h, ih]

theorem alookup_aupdate_self {κ α : Type} [DecidableEq κ] (f : α → α)
    (l : List (κ × α)) (k : κ) :
    alookup (aupdate f l k) k = (alookup l k).map f := by
  induction l with
  | nil => simp [alookup, aupdate]
  | cons p rest ih =>
      obtain ⟨k', v'⟩ := p
      by_cases h : k' = k
      · simp [alookup, aupdate, h]
      · simp [alookup, aupdate, h, ih]

theorem aupdate_of_none {κ α : Type} [DecidableEq κ] (f : α → α)
    {l : List (κ × α)} {k : κ} (h : alookup l k = none) : aupdate f l k = l := by
  induction l with
  | nil => simp [aupdate]
  | cons p rest ih =>
      obtain ⟨k', v'⟩ := p
      by_cases hk : k' = k
      · simp [alookup, hk] at h
      · simp [alookup, hk] at h
        simp [aupdate, hk, ih h]

theorem aupdate_of_fix {κ α : Type} [DecidableEq κ] (f : α → α)
    {l : List (κ × α)} {k : κ} {v : α} (h : alookup l k = some v) (hf : f v = v) :
    aupdate f l k = l := by
  induction l with
  | nil => simp [alookup] at h
  | cons p rest ih =>
      obtain ⟨k', v'⟩ := p
      by_cases hk : k' = k
      · simp [alookup, hk] at h
        simp [aupdate, hk, h, hf]
      · simp [alookup, hk] at h
        simp [aupdate, hk, ih h]

theorem aerase_of_none {κ α : Type} [DecidableEq κ]
    {l : List (κ × α)} {k : κ} (h : alookup l k = none) : aerase l k = l := by
  induction l with
  | nil => simp [aerase]
  | cons p rest ih =>
      obtain ⟨k', v'⟩ := p
      by_cases hk : k' = k
      · simp [alookup, hk] at h
      · simp [alookup, hk] at h
        simp [aerase, hk, ih h]

theorem mem_aerase {κ α : Type} [DecidableEq κ]
    {l : List (κ × α)} {k : κ} {p : κ × α} (h : p ∈ aerase l k) : p ∈ l := by
  induction l with
  | nil => simp [aerase] at h
  | cons q rest ih =>
      obtain ⟨k', v'⟩ := q
      by_cases hk : k' = k
      · simp [aerase, hk] at h
        exact List.mem_cons_of_mem _ h
      · simp [aerase, hk] at h
        rcases h with h | h
        · simp [h]
        · exact List.mem_cons_of_mem _ (ih h)

theorem alookup_none_of_not_mem_keys {κ α : Type} [DecidableEq κ]
    {l : List (κ × α)} {k : κ} (h : k ∉ l.map Prod.fst) : alookup l k = none := by
  induction l with
  | nil => simp [alookup]
  | cons p rest ih =>
      obtain ⟨k', v'⟩ := p
      simp only [List.map_cons, List.mem_cons] at h
      push_neg at h
      simp [alookup, Ne.symm h.1, ih h.2]

theorem alookup_aerase_self {κ α : Type} [DecidableEq κ]
    {l : List (κ × α)} {k : κ} (hnd : (l.map Prod.fst).Nodup) :
    alookup (aerase l k) k = none := by
  induction l with
  | nil => simp [alookup, aerase]
  | cons p rest ih =>
      obtain ⟨k', v'⟩ := p
      simp only [List.map_cons, List.nodup_cons] at hnd
      by_cases hk : k' = k
      · subst hk
        simp only [aerase, if_pos rfl]
        exact alookup_none_of_not_mem_keys hnd.1
      · simp [aerase, hk, alookup, ih hnd.2]

theorem mem_aupdate {κ α : Type} [DecidableEq κ] {f : α → α}
    {l : List (κ × α)} {k : κ} {p : κ × α} (h : p ∈ aupdate f l k) :
    p ∈ l ∨ ∃ w, alookup l k = some w ∧ p = (k, f w) := by
  induction l with
  | nil => simp [aupdate] at h
  | cons q rest ih =>
      obtain ⟨k', v'⟩ := q
      by_cases hk : k' = k
      · subst hk
        simp only [aupdate, if_pos rfl] at h
        rcases List.mem_cons.mp h with h | h
        · exact Or.inr ⟨v', by simp [alookup], h⟩
        · exact Or.inl (List.mem_cons_of_mem _ h)
      · simp only [aupdate, if_neg hk] at h
        rcases List.mem_cons.mp h with h | h
        · exact Or.inl (by simp [h])
        · rcases ih h with h2 | ⟨w, hw, hp⟩
          · exact Or.inl (List.mem_cons_of_mem _ h2)
          · exact Or.inr ⟨w, by simp [alookup, hk, hw], hp⟩

theorem alookup_mem {κ α : Type} [DecidableEq κ]
    {l : List (κ × α)} {k : κ} {v : α} (h : alookup l k = some v) : (k, v) ∈ l := by
  induction l with
  | nil => simp [alookup] at h
  | cons q rest ih =>
      obtain ⟨k', v'⟩ := q
      by_cases hk : k' = k
      · simp [alookup, hk] at h
        simp [hk, h]
      · simp [alookup, hk] at h
        exact List.mem_cons_of_mem _ (ih h)

theorem keys_aupdate {κ α : Type} [DecidableEq κ] (f : α → α)
    (l : List (κ × α)) (k : κ) :
    (aupdate f l k).map Prod.fst = l.map Prod.fst := by
  induction l with
  | nil => simp [aupdate]
  | cons q rest ih =>
      obtain ⟨k', v'⟩ := q
      by_cases hk : k' = k
      · simp [aupdate, hk]
      · simp [aupdate, hk, ih]

theorem aupdate_pointwise {κ α : Type} [DecidableEq κ] {f : α → α}
    {l : List (κ × α)} {k k' : κ} {v : α}
    (hnd : (l.map Prod.fst).Nodup) (hm : (k', v) ∈ l) :
    (k', if k' = k then f v else v) ∈ aupdate f l k := by
  induction l with
  | nil => simp at hm
  | cons q rest ih =>
      obtain ⟨k0, v0⟩ := q
      simp only [List.map_cons, List.nodup_cons] at hnd
      rcases List.mem_cons.mp hm with h | h
      · have hk0 : k' = k0 := congrArg Prod.fst h
        have hv0 : v = v0 := congrArg Prod.snd h
        subst hk0; subst hv0
        by_cases hk : k' = k
        · simp [aupdate, hk]
        · simp [aupdate, hk]
      · have hk0ne : k0 ≠ k' := by
          intro hcon
          exact hnd.1 (hcon ▸ (List.mem_map.mpr ⟨(k', v), h, rfl⟩))
        by_cases hk : k0 = k
        · subst hk
          by_cases hkk : k' = k0
          · exact absurd hkk.symm hk0ne
          · simp only [aupdate, if_pos rfl, List.mem_cons]
            right
            simpa [hkk] using h
        · simp only [aupdate, if_neg hk, List.mem_cons]
          exact Or.inr (ih hnd.2 h)

theorem alookup_of_mem_nodup {κ α : Type} [DecidableEq κ]
    {l : List (κ × α)} {k : κ} {v : α}
    (hnd : (l.map Prod.fst).Nodup) (hm : (k, v) ∈ l) : alookup l k = some v := by
  induction l with
  | nil => simp at hm
  | cons q rest ih =>
      obtain ⟨k0, v0⟩ := q
      simp only [List.map_cons, List.nodup_cons] at hnd
      rcases List.mem_cons.mp hm with h | h
      · have hk0 : k = k0 := congrArg Prod.fst h
        have hv0 : v = v0 := congrArg Prod.snd h
        subst hk0; subst hv0
        simp [alookup]
      · have hk0ne : k0 ≠ k := by
          intro hcon
          exact hnd.1 (hcon ▸ (List.mem_map.mpr ⟨(k, v), h, rfl⟩))
        simp [alookup, hk0ne, ih hnd.2 h]

/-! ### C6 : bounded event history -/

theorem publishAll_append (cap : Nat) (l : List Event) (e : Event) :
    publishAll cap (l ++ [e]) = publishHistory cap (publishAll cap l) e := by
  simp [publishAll, List.foldl_append]

theorem publishHistory_eq (cap : Nat) (hist : List Event) (e : Event) :
    publishHistory cap hist e =
      if cap < hist.length + 1 then pySliceLast cap (hist ++ [e]) else hist ++ [e] := by
  simp [publishHistory]

theorem publishAll_drop (cap : Nat) (hcap : 0 < cap) (l : List Event) :
    publishAll cap l = l.drop (l.length - cap) := by
  induction l using List.reverseRecOn with
  | nil => simp [publishAll]
  | append_singleton l e ih =>
      rw [publishAll_append, ih, publishHistory_eq]
      simp only [List.length_append, List.length_singleton, List.length_drop]
      by_cases h : l.length < cap
      · have hcond : ¬ cap < l.length - (l.length - cap) + 1 := by omega
        rw [if_neg hcond]
        have hd0 : l.length - cap = 0 := by omega
        have hd1 : l.length + 1 - cap = 0 := by omega
        rw [hd0, hd1, List.drop_zero, List.drop_zero]
      · push_neg at h
        have hcond : cap < l.length - (l.length - cap) + 1 := by omega
        rw [if_pos hcond]
        simp only [pySliceLast, if_neg (by omega : ¬ cap = 0)]
        simp only [List.length_append, List.length_singleton, List.length_drop]
        have hidx : l.length - (l.length - cap) + 1 - cap = 1 := by omega
        rw [hidx, List.drop_append_eq_append_drop, List.drop_append_eq_append_drop]
        have h1d : 1 - (List.drop (l.length - cap) l).length = 0 := by
          rw [List.length_drop]
          omega
        have h2d : l.length + 1 - cap - l.length = 0 := by omega
        rw [h1d, h2d]
        simp only [List.drop_zero]
        rw [List.drop_drop]
        have harith : l.length - cap + 1 = l.length + 1 - cap := by omega
        rw [harith]

/-- C6 : after any sequence of publishes the retained `_event_history`
never exceeds the configured `_max_history` capacity, and after
publishing `capacity + 1` events from an empty history the oldest one
has been evicted: exactly the newest `capacity` events remain, in
publication order. -/
theorem event_history_bounded (cap : Nat) (hcap : 0 < cap) :
    (∀ events : List Event, (publishAll cap events).length ≤ cap) ∧
    (∀ events : List Event, events.length = cap + 1 →
      publishAll cap events = events.drop 1) := by
  constructor
  · intro events
    rw [publishAll_drop cap hcap, List.length_drop]
    omega
  · intro events hlen
    have h1 : events.length - cap = 1 := by omega
    rw [publishAll_drop cap hcap, h1]

/-- A concrete event for witnesses and counterexamples. -/
def evA : Event := ⟨EventType.USER_JOINED, [], some "u1", none⟩

/-- A second concrete event. -/
def evB : Event := ⟨EventType.DOCUMENT_UPDATED, [], some "u1", some "doc1"⟩

/-- A third concrete event. -/
def evC : Event := ⟨EventType.USER_LEFT, [], some "u2", none⟩

/-- Witness for C6 at capacity 2 and three published events. -/
theorem event_history_bounded_witness :
    0 < 2 ∧ publishAll 2 [evA, evB, evC] = [evB, evC] := by
  refine ⟨by decide, ?_⟩
  have h := (event_history_bounded 2 (by decide)).2 [evA, evB, evC] (by decide)
  simpa using h

/-! ### C8 : send_message with no injected broker -/

/-- A concrete request message from an agent that never saw a broker. -/
def noBrokerMsg : AgentMessage :=
  ⟨MessageType.DOC_CREATE, "document_agent", "version_agent", [], "m1", none, 0⟩

/-- C8 counterexample: with no broker injected, `Agent.send_message`
returns normally (`Except.ok`, so no exception reaches the caller) and
routes nothing (`none`): the message is silently dropped after a
`logger.error`, which refutes the claim that the call fails loudly. -/
theorem send_message_no_broker_counterexample :
    send_message none noBrokerMsg = Except.ok none := rfl

/-- C8 amended: for every agent on which `send_message(msg)` is called
while no broker has been injected, the call logs an error and returns
normally without routing the message anywhere; the caller observes no
exception and no delivery (a silent drop, not a loud failure). -/
theorem send_message_no_broker_silent (m : AgentMessage) :
    send_message none m = Except.ok none := rfl

/-! ### C3 : late RESPONSE/ERROR with no matching pending entry -/

/-- A broker with one registered agent `"api"` with an empty queue and
no pending requests. -/
def lateState : BrokerState := ⟨[("api", [])], [], []⟩

/-- A late reply: `RESPONSE` typed, correlation id `"stale"` matching no
pending entry, addressed to the registered agent `"api"`. -/
def lateReply : AgentMessage :=
  ⟨MessageType.RESPONSE, "document_agent", "api", [("ok", "true")], "r9", some "stale", 0⟩

/-- C3 counterexample: a late `RESPONSE` whose correlation id matches no
pending entry is not dropped by `route_message`: because its recipient
`"api"` is a registered agent, it is enqueued into that agent inbound
queue (rule 3 fall-through), refuting the claim that such a message is
not delivered to any agent queue. -/
theorem late_reply_delivered_counterexample :
    route_message lateState lateReply
      = (⟨[("api", [lateReply])], [], []⟩, RouteEffect.delivered "api") := by
  decide

/-- C3 amended: a `RESPONSE`/`ERROR` whose correlation id matches no
pending entry resolves no future and leaves the pending map unchanged,
but is not simply dropped: it falls through to the normal routing rules
(broadcast, direct recipient, capability index) and is dropped only when
none of those applies. -/
theorem late_reply_falls_through (st : BrokerState) (m : AgentMessage)
    (ht : m.type = MessageType.RESPONSE ∨ m.type = MessageType.ERROR)
    (hc : ∀ c, correlationKey m = some c → c ∉ st.pending_requests) :
    (route_message st m).1.pending_requests = st.pending_requests ∧
    (∀ k v, (route_message st m).2 ≠ RouteEffect.resolvedPending k v) ∧
    (m.recipient ≠ "broadcast" → alookup st.agents m.recipient = none →
      alookup st.subscribers m.type = none →
      route_message st m = (st, RouteEffect.dropped)) := by
  have hcorr : corrHit st m = none := by
    unfold corrHit
    rw [if_pos ht]
    cases hck : correlationKey m with
    | none => rfl
    | some c => simp [hc c hck]
  refine ⟨?_, ?_, ?_⟩
  · unfold route_message
    rw [hcorr]
    by_cases hb : m.recipient = "broadcast"
    · simp [hb]
    · by_cases hd : (alookup st.agents m.recipient).isSome
      · simp [hb, hd]
      · cases hs : alookup st.subscribers m.type with
        | none => simp [hb, hd, hs]
        | some handlers =>
            cases handlers with
            | nil => simp [hb, hd, hs]
            | cons hd1 tl =>
                by_cases hreg : (alookup st.agents hd1).isSome
                · simp [hb, hd, hs, hreg, enqueueTo]
                · simp [hb, hd, hs, hreg]
  · intro k v
    unfold route_message
    rw [hcorr]
    by_cases hb : m.recipient = "broadcast"
    · simp [hb]
    · by_cases hd : (alookup st.agents m.recipient).isSome
      · simp [hb, hd]
      · cases hs : alookup st.subscribers m.type with
        | none => simp [hb, hd, hs]
        | some handlers =>
            cases handlers with
            | nil => simp [hb, hd, hs]
            | cons hd1 tl =>
                by_cases hreg : (alookup st.agents hd1).isSome
                · simp [hb, hd, hs, hreg]
                · simp [hb, hd, hs, hreg]
  · intro hb hd hs
    unfold route_message
    rw [hcorr]
    simp [hb, hd, hs]

/-- Witness for the amended C3 at a concrete broker and late reply:
the reply of the counterexample keeps the (empty) pending map, resolves
nothing, and a reply to an unregistered recipient is dropped. -/
theorem late_reply_falls_through_witness :
    (route_message lateState lateReply).1.pending_requests = lateState.pending_requests
    ∧ route_message ⟨[], [], []⟩ lateReply = (⟨[], [], []⟩, RouteEffect.dropped) := by
  constructor
  · exact (late_reply_falls_through lateState lateReply (Or.inl rfl)
      (fun c _ => by simp [lateState])).1
  · exact (late_reply_falls_through ⟨[], [], []⟩ lateReply (Or.inl rfl)
      (fun c _ => by simp)).2.2 (by decide) (by decide) (by decide)

/-! ### C1 : strict routing priority of route_message -/

theorem alookup_isSome_iff {κ α : Type} [DecidableEq κ] {l : List (κ × α)} {k : κ} :
    (alookup l k).isSome = true ↔ k ∈ l.map Prod.fst := by
  induction l with
  | nil => simp [alookup]
  | cons p rest ih =>
      obtain ⟨k', v'⟩ := p
      by_cases h : k' = k
      · simp [alookup, h]
      · simp [alookup, h, ih, Ne.symm h]

/-- C1 : the routing rules of `route_message` fire in strict priority
order. Rule 1 is the `corrHit` guard (a `RESPONSE`/`ERROR` whose truthy
correlation id is pending): the matched entry is popped, its future is
resolved with the message, and no queue changes. Otherwise rule 2
(broadcast) appends the message to the queue of every registered agent
except the sender and leaves the sender queue alone; otherwise rule 3
delivers to a registered recipient queue only; otherwise rule 4 delivers
to the first agent id under the capability entry for the type (the
registry invariant, assumed as `hwf`, keeps every indexed id
registered); otherwise rule 5 drops the message leaving the whole state
unchanged, which is all the sender can observe. -/
theorem route_message_priority (st : BrokerState) (m : AgentMessage)
    (hkeys : (agentIds st).Nodup)
    (hwf : ∀ t : MessageType, ∀ a ∈ (alookup st.subscribers t).getD [], a ∈ agentIds st) :
    (∀ c, corrHit st m = some c →
      (route_message st m).1.agents = st.agents ∧
      (route_message st m).1.pending_requests = st.pending_requests.erase c ∧
      (route_message st m).2 = RouteEffect.resolvedPending c m) ∧
    (corrHit st m = none → m.recipient = "broadcast" →
      (∀ a q, (a, q) ∈ st.agents → a ≠ m.sender →
        (a, q ++ [m]) ∈ (route_message st m).1.agents) ∧
      (∀ q, (m.sender, q) ∈ st.agents → (m.sender, q) ∈ (route_message st m).1.agents) ∧
      (route_message st m).1.pending_requests = st.pending_requests ∧
      (route_message st m).2 = RouteEffect.broadcasted) ∧
    (corrHit st m = none → m.recipient ≠ "broadcast" → m.recipient ∈ agentIds st →
      (∀ a q, (a, q) ∈ st.agents →
        (a, if a = m.recipient then q ++ [m] else q) ∈ (route_message st m).1.agents) ∧
      (route_message st m).1.pending_requests = st.pending_requests ∧
      (route_message st m).2 = RouteEffect.delivered m.recipient) ∧
    (∀ h tl, corrHit st m = none → m.recipient ≠ "broadcast" →
      m.recipient ∉ agentIds st → alookup st.subscribers m.type = some (h :: tl) →
      (∀ a q, (a, q) ∈ st.agents →
        (a, if a = h then q ++ [m] else q) ∈ (route_message st m).1.agents) ∧
      (route_message st m).1.pending_requests = st.pending_requests ∧
      (route_message st m).2 = RouteEffect.deliveredByCapability h) ∧
    (corrHit st m = none → m.recipient ≠ "broadcast" → m.recipient ∉ agentIds st →
      (alookup st.subscribers m.type = none ∨ alookup st.subscribers m.type = some []) →
      route_message st m = (st, RouteEffect.dropped)) := by
  refine ⟨?_, ?_, ?_, ?_, ?_⟩
  · intro c hc
    unfold route_message
    rw [hc]
    exact ⟨rfl, rfl, rfl⟩
  · intro hc hb
    unfold route_message
    rw [hc]
    simp only [if_pos hb]
    refine ⟨?_, ?_, trivial, trivial⟩
    · intro a q hm hne
      have h2 := List.mem_map_of_mem
        (fun p : String × List AgentMessage =>
          if p.1 = m.sender then p else (p.1, p.2 ++ [m])) hm
      simpa [broadcastEnqueue, hne] using h2
    · intro q hm
      have h2 := List.mem_map_of_mem
        (fun p : String × List AgentMessage =>
          if p.1 = m.sender then p else (p.1, p.2 ++ [m])) hm
      simpa [broadcastEnqueue] using h2
  · intro hc hb hrec
    have hsome : (alookup st.agents m.recipient).isSome = true :=
      alookup_isSome_iff.mpr hrec
    unfold route_message
    rw [hc]
    simp only [if_neg hb, if_pos hsome]
    exact ⟨fun a q hm => aupdate_pointwise hkeys hm, trivial, trivial⟩
  · intro h tl hc hb hrec hsub
    have hreg : h ∈ agentIds st := by
      have := hwf m.type
      rw [hsub] at this
      exact this h (by simp)
    have hsome : (alookup st.agents h).isSome = true := alookup_isSome_iff.mpr hreg
    have hrecnone : alookup st.agents m.recipient = none :=
      alookup_none_of_not_mem_keys hrec
    unfold route_message
    rw [hc]
    simp only [if_neg hb, hrecnone, Option.isSome_none, Bool.false_eq_true, if_false,
      hsub, if_pos hsome]
    exact ⟨fun a q hm => aupdate_pointwise hkeys hm, trivial, trivial⟩
  · intro hc hb hrec hnone
    have hrecnone : alookup st.agents m.recipient = none :=
      alookup_none_of_not_mem_keys hrec
    unfold route_message
    rw [hc]
    rcases hnone with hs | hs
    · simp [if_neg hb, hrecnone, hs]
    · simp [if_neg hb, hrecnone, hs]

/-- A broker for the C1 witness: two registered agents, one pending
request, a capability entry for `VERSION_CREATE`. -/
def w1State : BrokerState :=
  ⟨[("user_agent", []), ("version_agent", [])], ["p1"],
   [(MessageType.VERSION_CREATE, ["version_agent"])]⟩

/-- A message with no matching recipient, routed by capability. -/
def w1Msg : AgentMessage :=
  ⟨MessageType.VERSION_CREATE, "api", "unknown_recipient", [], "w1", none, 0⟩

/-- Witness for C1: the capability rule fires on a concrete broker once
the higher-priority rules decline, delivering to the first registered
capability holder. -/
theorem route_message_priority_witness :
    (agentIds w1State).Nodup ∧
    (route_message w1State w1Msg).2 = RouteEffect.deliveredByCapability "version_agent" := by
  refine ⟨by decide, ?_⟩
  exact ((route_message_priority w1State w1Msg (by decide) (by decide)).2.2.2.1
    "version_agent" [] (by decide) (by decide) (by decide) (by decide)).2.2

/-! ### C4 : broadcast reaches all N-1 non-senders, failures isolated -/

/-- C4 : with the sender among the `N` registered agents, `_broadcast`
builds delivery tasks for exactly the `N - 1` other agents, and under
any pattern of per-target delivery failures each non-sender target is
still attempted with an outcome depending only on its own delivery
(`gather` with `return_exceptions=True` never drops the remaining
tasks). -/
theorem broadcast_isolates_failures (st : BrokerState) (m : AgentMessage)
    (hs : m.sender ∈ agentIds st) (hn : (agentIds st).Nodup) :
    (broadcastTargets st m).length = (agentIds st).length - 1 ∧
    (∀ fail : String → Bool, ∀ a ∈ agentIds st, a ≠ m.sender →
      (a, ! fail a) ∈ broadcastGather fail st m) := by
  constructor
  · have herase : (agentIds st).erase m.sender = broadcastTargets st m := by
      rw [hn.erase_eq_filter]
      unfold broadcastTargets
      apply List.filter_congr
      intro x _
      by_cases hx : x = m.sender <;> simp [hx, bne]
    rw [← herase]
    exact List.length_erase_of_mem hs
  · intro fail a ha hne
    have hmem : a ∈ broadcastTargets st m := by
      unfold broadcastTargets
      exact List.mem_filter.mpr ⟨ha, by simp [hne]⟩
    exact List.mem_map_of_mem (fun a => (a, ! fail a)) hmem

/-- Broker for the C4 witness: three registered agents. -/
def w4State : BrokerState := ⟨[("a", []), ("b", []), ("c", [])], [], []⟩

/-- A broadcast message sent by registered agent `"b"`. -/
def w4Msg : AgentMessage :=
  ⟨MessageType.BROADCAST, "b", "broadcast", [], "w4", none, 0⟩

/-- A failure pattern in which delivery to agent `"a"` raises. -/
def w4Fail : String → Bool := fun a => a = "a"

/-- Witness for C4: with sender `"b"` among three agents the broadcast
targets exactly two agents, and although delivery to `"a"` fails,
delivery to `"c"` still succeeds. -/
theorem broadcast_isolates_failures_witness :
    (broadcastTargets w4State w4Msg).length = (agentIds w4State).length - 1 ∧
    ("c", true) ∈ broadcastGather w4Fail w4State w4Msg := by
  have h := broadcast_isolates_failures w4State w4Msg (by decide) (by decide)
  refine ⟨h.1, ?_⟩
  have h2 := h.2 w4Fail "c" (by decide) (by decide)
  simpa [w4Fail] using h2

/-! ### C2 : request / response correlation and pending-entry hygiene -/

theorem corrHit_some_of (st : BrokerState) (r : AgentMessage) (c : String)
    (hrt : r.type = MessageType.RESPONSE ∨ r.type = MessageType.ERROR)
    (hc : r.correlation_id = some c) (hne : c ≠ "")
    (hmem : c ∈ st.pending_requests) : corrHit st r = some c := by
  unfold corrHit correlationKey
  rw [if_pos hrt, hc]
  simp [hne, hmem]

theorem corrHit_none_of_request (st : BrokerState) (m : AgentMessage)
    (h1 : m.type ≠ MessageType.RESPONSE) (h2 : m.type ≠ MessageType.ERROR) :
    corrHit st m = none := by
  unfold corrHit
  rw [if_neg]
  rintro (h | h)
  · exact h1 h
  · exact h2 h

theorem route_message_resolve (st : BrokerState) (m : AgentMessage) (c : String)
    (h : corrHit st m = some c) :
    route_message st m
      = ({ st with pending_requests := st.pending_requests.erase c },
         RouteEffect.resolvedPending c m) := by
  unfold route_message
  rw [h]

/-- Branching summary of `route_message`: either the correlation branch
fired (the state is the input with one pending entry erased) or it did
not, and then the pending map is untouched and no future is resolved. -/
theorem route_message_cases (st : BrokerState) (m : AgentMessage) :
    (∃ c, corrHit st m = some c ∧
      route_message st m
        = ({ st with pending_requests := st.pending_requests.erase c },
           RouteEffect.resolvedPending c m)) ∨
    ((route_message st m).1.pending_requests = st.pending_requests ∧
      ∀ k v, (route_message st m).2 ≠ RouteEffect.resolvedPending k v) := by
  cases hcorr : corrHit st m with
  | some c => exact Or.inl ⟨c, rfl, route_message_resolve st m c hcorr⟩
  | none =>
      right
      unfold route_message
      rw [hcorr]
      by_cases hb : m.recipient = "broadcast"
      · simp [hb]
      · by_cases hd : (alookup st.agents m.recipient).isSome
        · simp [hb, hd]
        · cases hs : alookup st.subscribers m.type with
          | none => simp [hb, hd, hs]
          | some handlers =>
              cases handlers with
              | nil => simp [hb, hd, hs]
              | cons h1 tl =>
                  by_cases hreg : (alookup st.agents h1).isSome
                  · simp [hb, hd, hs, hreg]
                  · simp [hb, hd, hs, hreg]

theorem awaitLoop_nil (st : BrokerState) (mid : String) :
    awaitLoop st mid []
      = (none, { st with pending_requests := st.pending_requests.erase mid }) := rfl

theorem awaitLoop_cons (st : BrokerState) (mid : String) (r : AgentMessage)
    (rest : List AgentMessage) :
    awaitLoop st mid (r :: rest)
      = match route_message st r with
        | (st3, RouteEffect.resolvedPending k v) =>
            if k = mid then (some v, st3) else awaitLoop st3 mid rest
        | (st3, _) => awaitLoop st3 mid rest := rfl

theorem awaitLoop_cons_resolve (st : BrokerState) (mid : String) (r : AgentMessage)
    (rest : List AgentMessage) (st3 : BrokerState) (k : String) (v : AgentMessage)
    (h : route_message st r = (st3, RouteEffect.resolvedPending k v)) :
    awaitLoop st mid (r :: rest)
      = if k = mid then (some v, st3) else awaitLoop st3 mid rest := by
  rw [awaitLoop_cons, h]

theorem awaitLoop_cons_skip (st : BrokerState) (mid : String) (r : AgentMessage)
    (rest : List AgentMessage) (st3 : BrokerState) (eff : RouteEffect)
    (h : route_message st r = (st3, eff))
    (hne : ∀ k v, eff ≠ RouteEffect.resolvedPending k v) :
    awaitLoop st mid (r :: rest) = awaitLoop st3 mid rest := by
  rw [awaitLoop_cons, h]
  cases eff with
  | resolvedPending k v => exact absurd rfl (hne k v)
  | broadcasted => rfl
  | delivered t => rfl
  | deliveredByCapability t => rfl
  | dropped => rfl

/-- Whatever messages arrive while waiting, the awaited key is gone from
the pending map afterwards and the pending map stays duplicate-free. -/
theorem awaitLoop_no_leak (mid : String) (arrivals : List AgentMessage) :
    ∀ st : BrokerState, st.pending_requests.Nodup →
      mid ∉ (awaitLoop st mid arrivals).2.pending_requests ∧
      (awaitLoop st mid arrivals).2.pending_requests.Nodup := by
  induction arrivals with
  | nil =>
      intro st hnd
      rw [awaitLoop_nil]
      exact ⟨hnd.not_mem_erase, hnd.erase mid⟩
  | cons r rest ih =>
      intro st hnd
      rcases hroute : route_message st r with ⟨st3, eff⟩
      cases eff with
      | resolvedPending k v =>
          have hst3 : st3.pending_requests = st.pending_requests.erase k := by
            rcases route_message_cases st r with ⟨c, _, heq⟩ | ⟨_, hneff⟩
            · have hcomb := hroute.symm.trans heq
              injection hcomb with h1 h2
              injection h2 with hk hv
              rw [h1, ← hk]
            · exact absurd (by rw [hroute]) (hneff k v)
          rw [awaitLoop_cons_resolve st mid r rest st3 k v hroute]
          by_cases hkm : k = mid
          · subst hkm
            rw [if_pos rfl]
            have : st3.pending_requests.Nodup := by
              rw [hst3]
              exact hnd.erase k
            refine ⟨?_, this⟩
            rw [hst3]
            exact hnd.not_mem_erase
          · rw [if_neg hkm]
            exact ih st3 (by rw [hst3]; exact hnd.erase k)
      | broadcasted =>
          rw [awaitLoop_cons_skip st mid r rest st3 _ hroute (by simp)]
          have hst3 : st3.pending_requests = st.pending_requests := by
            rcases route_message_cases st r with ⟨c, _, heq⟩ | ⟨hpend, _⟩
            · have hcomb := hroute.symm.trans heq
              injection hcomb with h1 h2
              exact absurd h2.symm (by simp)
            · rw [hroute] at hpend
              exact hpend
          exact ih st3 (by rw [hst3]; exact hnd)
      | delivered t =>
          rw [awaitLoop_cons_skip st mid r rest st3 _ hroute (by simp)]
          have hst3 : st3.pending_requests = st.pending_requests := by
            rcases route_message_cases st r with ⟨c, _, heq⟩ | ⟨hpend, _⟩
            · have hcomb := hroute.symm.trans heq
              injection hcomb with h1 h2
              exact absurd h2.symm (by simp)
            · rw [hroute] at hpend
              exact hpend
          exact ih st3 (by rw [hst3]; exact hnd)
      | deliveredByCapability t =>
          rw [awaitLoop_cons_skip st mid r rest st3 _ hroute (by simp)]
          have hst3 : st3.pending_requests = st.pending_requests := by
            rcases route_message_cases st r with ⟨c, _, heq⟩ | ⟨hpend, _⟩
            · have hcomb := hroute.symm.trans heq
              injection hcomb with h1 h2
              exact absurd h2.symm (by simp)
            · rw [hroute] at hpend
              exact hpend
          exact ih st3 (by rw [hst3]; exact hnd)
      | dropped =>
          rw [awaitLoop_cons_skip st mid r rest st3 _ hroute (by simp)]
          have hst3 : st3.pending_requests = st.pending_requests := by
            rcases route_message_cases st r with ⟨c, _, heq⟩ | ⟨hpend, _⟩
            · have hcomb := hroute.symm.trans heq
              injection hcomb with h1 h2
              exact absurd h2.symm (by simp)
            · rw [hroute] at hpend
              exact hpend
          exact ih st3 (by rw [hst3]; exact hnd)

theorem request_eq (st : BrokerState) (m : AgentMessage)
    (arrivals : List AgentMessage) :
    request st m arrivals
      = match route_message ⟨st.agents, m.id :: st.pending_requests,
          st.subscribers⟩ m with
        | (st2, RouteEffect.resolvedPending k v) =>
            if k = m.id then (some v, st2) else awaitLoop st2 m.id arrivals
        | (st2, _) => awaitLoop st2 m.id arrivals := rfl

theorem request_skip (st : BrokerState) (m : AgentMessage)
    (arrivals : List AgentMessage) (st2 : BrokerState) (eff : RouteEffect)
    (h : route_message ⟨st.agents, m.id :: st.pending_requests, st.subscribers⟩ m
      = (st2, eff))
    (hne : ∀ k v, eff ≠ RouteEffect.resolvedPending k v) :
    request st m arrivals = awaitLoop st2 m.id arrivals := by
  rw [request_eq, h]
  cases eff with
  | resolvedPending k v => exact absurd rfl (hne k v)
  | broadcasted => rfl
  | delivered t => rfl
  | deliveredByCapability t => rfl
  | dropped => rfl

/-- The condition of the claim: the message is a `RESPONSE` or `ERROR`
whose `correlation_id` equals the awaited request id. Exactly such
messages can resolve the pending entry keyed `mid`. -/
abbrev correlatesTo (p : AgentMessage) (mid : String) : Prop :=
  (p.type = MessageType.RESPONSE ∨ p.type = MessageType.ERROR) ∧
    p.correlation_id = some mid

theorem correlationKey_some_inv (p : AgentMessage) (c : String)
    (h : correlationKey p = some c) : p.correlation_id = some c ∧ c ≠ "" := by
  unfold correlationKey at h
  cases hcor : p.correlation_id with
  | none =>
      rw [hcor] at h
      simp at h
  | some c3 =>
      rw [hcor] at h
      by_cases hz : c3 = ""
      · simp [hz] at h
      · simp only [hz, if_false] at h
        simp at h
        subst h
        exact ⟨rfl, hz⟩

theorem corrHit_some_inv (st : BrokerState) (p : AgentMessage) (c : String)
    (h : corrHit st p = some c) :
    (p.type = MessageType.RESPONSE ∨ p.type = MessageType.ERROR) ∧
    p.correlation_id = some c ∧ c ≠ "" ∧ c ∈ st.pending_requests := by
  unfold corrHit at h
  by_cases ht : p.type = MessageType.RESPONSE ∨ p.type = MessageType.ERROR
  · rw [if_pos ht] at h
    cases hck : correlationKey p with
    | none =>
        rw [hck] at h
        simp at h
    | some c2 =>
        rw [hck] at h
        by_cases hm : c2 ∈ st.pending_requests
        · simp [hm] at h
          subst h
          obtain ⟨hcor, hz⟩ := correlationKey_some_inv p c2 hck
          exact ⟨ht, hcor, hz, hm⟩
        · simp [hm] at h
  · rw [if_neg ht] at h
    simp at h

/-- Routing any prefix of messages none of which is a `RESPONSE`/`ERROR`
correlated to `mid` never resolves the `mid` future: the wait continues
on the remaining arrivals from some broker state that still holds the
`mid` pending entry (such traffic may resolve other requests, be
broadcast or be delivered, but leaves this entry alone). -/
theorem awaitLoop_skip_uncorrelated (mid : String) (pre : List AgentMessage) :
    ∀ (st : BrokerState) (rest : List AgentMessage),
      mid ∈ st.pending_requests → st.pending_requests.Nodup →
      (∀ p ∈ pre, ¬ correlatesTo p mid) →
      ∃ st' : BrokerState,
        awaitLoop st mid (pre ++ rest) = awaitLoop st' mid rest ∧
        mid ∈ st'.pending_requests ∧ st'.pending_requests.Nodup := by
  induction pre with
  | nil =>
      intro st rest hmem hnd _
      exact ⟨st, by simp, hmem, hnd⟩
  | cons p pre' ih =>
      intro st rest hmem hnd hunc
      have hp := hunc p (List.mem_cons_self _ _)
      have hrest : ∀ q ∈ pre', ¬ correlatesTo q mid :=
        fun q hq => hunc q (List.mem_cons_of_mem _ hq)
      rcases route_message_cases st p with ⟨c, hc, heq⟩ | ⟨hpend, hneff⟩
      · have hinv := corrHit_some_inv st p c hc
        have hcne : c ≠ mid := by
          intro he
          exact hp ⟨hinv.1, by rw [hinv.2.1, he]⟩
        rw [List.cons_append,
          awaitLoop_cons_resolve st mid p (pre' ++ rest) _ c p heq, if_neg hcne]
        have h1 : mid ∈ ({ st with
            pending_requests := st.pending_requests.erase c } :
            BrokerState).pending_requests :=
          (List.mem_erase_of_ne (Ne.symm hcne)).mpr hmem
        have h2 : ({ st with pending_requests := st.pending_requests.erase c } :
            BrokerState).pending_requests.Nodup := hnd.erase c
        exact ih _ rest h1 h2 hrest
      · rcases hroute : route_message st p with ⟨st3, eff⟩
        have hne' : ∀ k v, eff ≠ RouteEffect.resolvedPending k v :=
          fun k v hkv => hneff k v (by rw [hroute, hkv])
        rw [List.cons_append,
          awaitLoop_cons_skip st mid p (pre' ++ rest) st3 eff hroute hne']
        have hst3 : st3.pending_requests = st.pending_requests := by
          rw [hroute] at hpend
          exact hpend
        exact ih st3 rest (by rw [hst3]; exact hmem) (by rw [hst3]; exact hnd) hrest

/-- C2 : for every request `m` with a fresh id, over arbitrary traffic
routed while waiting: if, among the messages routed before the timeout,
one is a `RESPONSE`/`ERROR` correlated to `m.id` — preceded by any
amount of traffic not correlated to `m.id` (other requests, broadcasts,
responses to other pending requests, arriving in any order) — then
`request` returns exactly that message and the pending entry for `m.id`
is gone; if no message routed before the timeout is correlated to
`m.id`, `request` returns `none` (not an exception: the embedding of
the `TimeoutError` branch is a value) and the pending entry is gone;
and no arrival sequence whatsoever, correlated or not, leaves a pending
entry for `m.id` behind. -/
theorem request_correlation (st : BrokerState) (m r : AgentMessage)
    (hnd : st.pending_requests.Nodup) (hfresh : m.id ∉ st.pending_requests)
    (hreq1 : m.type ≠ MessageType.RESPONSE) (hreq2 : m.type ≠ MessageType.ERROR)
    (hrt : r.type = MessageType.RESPONSE ∨ r.type = MessageType.ERROR)
    (hrc : r.correlation_id = some m.id) (hid : m.id ≠ "") :
    (∀ pre post : List AgentMessage, (∀ p ∈ pre, ¬ correlatesTo p m.id) →
      (request st m (pre ++ r :: post)).1 = some r ∧
      m.id ∉ (request st m (pre ++ r :: post)).2.pending_requests) ∧
    (∀ arrivals : List AgentMessage, (∀ p ∈ arrivals, ¬ correlatesTo p m.id) →
      (request st m arrivals).1 = none ∧
      m.id ∉ (request st m arrivals).2.pending_requests) ∧
    (∀ arrivals, m.id ∉ (request st m arrivals).2.pending_requests) := by
  have hpend1 : (m.id :: st.pending_requests).Nodup :=
    List.nodup_cons.mpr ⟨hfresh, hnd⟩
  have hcorr1 : corrHit
      (⟨st.agents, m.id :: st.pending_requests, st.subscribers⟩ : BrokerState) m
      = none := corrHit_none_of_request _ m hreq1 hreq2
  rcases hroute : route_message
      (⟨st.agents, m.id :: st.pending_requests, st.subscribers⟩ : BrokerState) m
    with ⟨st2, eff⟩
  have hne : ∀ k v, eff ≠ RouteEffect.resolvedPending k v := by
    intro k v hkv
    rcases route_message_cases
        (⟨st.agents, m.id :: st.pending_requests, st.subscribers⟩ : BrokerState) m
      with ⟨c, hc, _⟩ | ⟨_, hneff⟩
    · rw [hc] at hcorr1
      exact absurd hcorr1 (by simp)
    · exact hneff k v (by rw [hroute, hkv])
  have hreq' : ∀ arrivals, request st m arrivals = awaitLoop st2 m.id arrivals :=
    fun arrivals => request_skip st m arrivals st2 eff hroute hne
  have hpend2 : st2.pending_requests = m.id :: st.pending_requests := by
    rcases route_message_cases
        (⟨st.agents, m.id :: st.pending_requests, st.subscribers⟩ : BrokerState) m
      with ⟨c, hc, _⟩ | ⟨hpend, _⟩
    · rw [hc] at hcorr1
      exact absurd hcorr1 (by simp)
    · rw [hroute] at hpend
      exact hpend
  have hmem2 : m.id ∈ st2.pending_requests := by
    rw [hpend2]
    exact List.mem_cons_self m.id st.pending_requests
  have hnd2 : st2.pending_requests.Nodup := by
    rw [hpend2]
    exact hpend1
  refine ⟨?_, ?_, ?_⟩
  · intro pre post hunc
    rw [hreq' (pre ++ r :: post)]
    obtain ⟨st', heq, hmem', hnd'⟩ :=
      awaitLoop_skip_uncorrelated m.id pre st2 (r :: post) hmem2 hnd2 hunc
    rw [heq]
    have hcorr2 : corrHit st' r = some m.id :=
      corrHit_some_of st' r m.id hrt hrc hid hmem'
    have hres := route_message_resolve st' r m.id hcorr2
    rw [awaitLoop_cons_resolve st' m.id r post _ m.id r hres, if_pos rfl]
    exact ⟨rfl, hnd'.not_mem_erase⟩
  · intro arrivals hunc
    rw [hreq' arrivals]
    obtain ⟨st', heq, hmem', hnd'⟩ :=
      awaitLoop_skip_uncorrelated m.id arrivals st2 [] hmem2 hnd2 hunc
    rw [← List.append_nil arrivals, heq, awaitLoop_nil]
    exact ⟨rfl, hnd'.not_mem_erase⟩
  · intro arrivals
    rw [hreq' arrivals]
    exact (awaitLoop_no_leak m.id arrivals st2 hnd2).1

/-- Broker for the C2 witness: one registered agent, nothing pending. -/
def w2State : BrokerState := ⟨[("user_agent", [])], [], []⟩

/-- A login request with id `"q1"`. -/
def w2Req : AgentMessage :=
  ⟨MessageType.USER_LOGIN, "api", "user_agent", [], "q1", none, 0⟩

/-- The correlated response to `"q1"`. -/
def w2Resp : AgentMessage :=
  ⟨MessageType.RESPONSE, "user_agent", "api", [("success", "True")], "s1", some "q1", 0⟩

/-- Unrelated traffic routed while the request waits: a broadcast
heartbeat and a response correlated to a different request. -/
def w2Noise : AgentMessage :=
  ⟨MessageType.HEARTBEAT, "version_agent", "broadcast", [], "n1", none, 0⟩

/-- A response correlated to some other request id, not `"q1"`. -/
def w2Other : AgentMessage :=
  ⟨MessageType.RESPONSE, "user_agent", "api", [], "s2", some "q9", 0⟩

/-- Witness for C2: the concrete request receives exactly its correlated
response even when uncorrelated traffic (a broadcast and an out-of-order
response to another request) is routed first, and when only such traffic
arrives the request times out with the pending entry absent. -/
theorem request_correlation_witness :
    (request w2State w2Req [w2Noise, w2Other, w2Resp]).1 = some w2Resp ∧
    (request w2State w2Req [w2Noise, w2Other]).1 = none ∧
    "q1" ∉ (request w2State w2Req [w2Noise, w2Other]).2.pending_requests := by
  have h := request_correlation w2State w2Req w2Resp (by decide) (by decide)
    (by decide) (by decide) (by decide) (by decide) (by decide)
  refine ⟨?_, ?_, ?_⟩
  · exact (h.1 [w2Noise, w2Other] [] (by decide)).1
  · exact (h.2.1 [w2Noise, w2Other] (by decide)).1
  · exact (h.2.1 [w2Noise, w2Other] (by decide)).2

/-! ### C5 : FIFO handling and handler-failure containment -/

/-- C5 : the processing loop handles the queued messages exactly in
enqueue order whatever the handlers do (first conjunct: the handled
trace is the queue itself, so an exception never prevents the next
queued message from being processed), and a raising handler makes the
loop emit, via `create_response`, an `ERROR`-typed reply correlated to
the failed message through the broker and then continue with the rest
of the queue (remaining conjuncts). -/
theorem process_loop_error_containment
    (handlers : MessageType → Option HandlerFn) (fresh : Nat → String)
    (m : AgentMessage) (rest : List AgentMessage) (k : Nat)
    (hf : HandlerFn) (e : String)
    (hh : handlers m.type = some hf) (he : hf m = Except.error e) :
    (∀ (queue : List AgentMessage) (k0 : Nat),
      (_process_messages handlers fresh queue k0).1 = queue) ∧
    _process_messages handlers fresh (m :: rest) k
      = (m :: (_process_messages handlers fresh rest (k + 1)).1,
         m.create_response [("error", e), ("success", "False")] false (fresh k)
           :: (_process_messages handlers fresh rest (k + 1)).2) ∧
    (m.create_response [("error", e), ("success", "False")] false (fresh k)).type
      = MessageType.ERROR ∧
    (m.create_response [("error", e), ("success", "False")] false (fresh k)).correlation_id
      = some m.id := by
  refine ⟨?_, ?_, rfl, rfl⟩
  · intro queue
    induction queue with
    | nil => intro k0; rfl
    | cons q qs ih =>
        intro k0
        cases hq : handlers q.type with
        | none =>
            simp only [_process_messages, hq]
            exact congrArg (q :: ·) (ih k0)
        | some h1 =>
            cases hr : h1 q with
            | ok result =>
                cases result with
                | none =>
                    simp only [_process_messages, hq, hr]
                    exact congrArg (q :: ·) (ih k0)
                | some reply =>
                    simp only [_process_messages, hq, hr]
                    exact congrArg (q :: ·) (ih k0)
            | error err =>
                simp only [_process_messages, hq, hr]
                exact congrArg (q :: ·) (ih (k0 + 1))
  · simp only [_process_messages, hh, he]

/-- A handler that always raises, for the C5 witness. -/
def w5Handler : HandlerFn := fun _ => Except.error "boom"

/-- A handler table with only `DOC_UPDATE` registered, raising. -/
def w5Handlers : MessageType → Option HandlerFn :=
  fun t => if t = MessageType.DOC_UPDATE then some w5Handler else none

/-- A uuid supply for the witness. -/
def w5Fresh : Nat → String := fun _ => "err-uuid"

/-- The message whose handler raises. -/
def w5Msg : AgentMessage := ⟨MessageType.DOC_UPDATE, "api", "document_agent", [], "d1", none, 0⟩

/-- The message queued behind the failing one. -/
def w5Msg2 : AgentMessage := ⟨MessageType.DOC_READ, "api", "document_agent", [], "d2", none, 0⟩

/-- Witness for C5: with a raising handler at the head of a two-message
queue, both messages are handled in order and the synthesized reply is
an `ERROR` correlated to the failed message. -/
theorem process_loop_error_containment_witness :
    (_process_messages w5Handlers w5Fresh [w5Msg, w5Msg2] 0).1 = [w5Msg, w5Msg2] ∧
    (w5Msg.create_response [("error", "boom"), ("success", "False")] false
      (w5Fresh 0)).type = MessageType.ERROR ∧
    (w5Msg.create_response [("error", "boom"), ("success", "False")] false
      (w5Fresh 0)).correlation_id = some "d1" := by
  have h := process_loop_error_containment w5Handlers w5Fresh w5Msg [w5Msg2] 0
    w5Handler "boom" rfl rfl
  exact ⟨h.1 [w5Msg, w5Msg2] 0, h.2.2.1, h.2.2.2⟩

/-! ### C9 : independence of subscriptions sharing one callback -/

/-- An empty event bus. -/
def busEmpty : EventBusState := ⟨[], [], [], []⟩

/-- A concrete document event for C9. -/
def docEvent : Event := ⟨EventType.DOCUMENT_UPDATED, [], none, some "doc1"⟩

/-- C9 counterexample: callback `7` subscribed twice to document
`"doc1"` collapses to a single set entry (`set.add` is idempotent), so
invoking just one of the two returned unsubscribe handles removes the
shared entry and the callback no longer receives events for that
document — the two subscriptions are not independent. -/
theorem document_subscriptions_not_independent :
    7 ∉ callbacksToCall
      (unsubscribeDocument
        (subscribe_to_document (subscribe_to_document busEmpty "doc1" 7) "doc1" 7)
        "doc1" 7) docEvent := by
  decide

theorem not_mem_keys_of_alookup_none {κ α : Type} [DecidableEq κ]
    {l : List (κ × α)} {k : κ} (h : alookup l k = none) : k ∉ l.map Prod.fst := by
  intro hmem
  have := alookup_isSome_iff.mpr hmem
  rw [h] at this
  exact absurd this (by simp)

theorem subscribe_lookup (bus : EventBusState) (t : EventType) (cb : Nat) :
    alookup (subscribe bus t cb)._subscribers t
      = some ((alookup bus._subscribers t).getD [] ++ [cb]) := by
  cases h : alookup bus._subscribers t with
  | some l =>
      simp only [subscribe, h, Option.isSome_some, if_true]
      rw [alookup_aupdate_self, h]
      rfl
  | none =>
      have happ : alookup (bus._subscribers ++ [(t, [])]) t = some ([] : List Nat) := by
        rw [alookup_append, h]
        simp [alookup]
      simp only [subscribe, h, Option.isSome_none, Bool.false_eq_true, if_false]
      rw [alookup_aupdate_self, happ]
      rfl

theorem subscribe_to_document_lookup (bus : EventBusState) (d : String) (cb : Nat) :
    alookup (subscribe_to_document bus d cb)._document_subscribers d
      = some (if cb ∈ (alookup bus._document_subscribers d).getD []
              then (alookup bus._document_subscribers d).getD []
              else (alookup bus._document_subscribers d).getD [] ++ [cb]) := by
  cases h : alookup bus._document_subscribers d with
  | some l =>
      simp only [subscribe_to_document, h, Option.isSome_some, if_true]
      rw [alookup_aupdate_self, h]
      rfl
  | none =>
      have happ : alookup (bus._document_subscribers ++ [(d, [])]) d
          = some ([] : List Nat) := by
        rw [alookup_append, h]
        simp [alookup]
      simp only [subscribe_to_document, h, Option.isSome_none, Bool.false_eq_true,
        if_false]
      rw [alookup_aupdate_self, happ]
      rfl

theorem subscribe_to_document_mem_noop (bus : EventBusState) (d : String) (cb : Nat)
    (l : List Nat) (h : alookup bus._document_subscribers d = some l) (hm : cb ∈ l) :
    subscribe_to_document bus d cb = bus := by
  have hfix : aupdate (fun l => if cb ∈ l then l else l ++ [cb])
      bus._document_subscribers d = bus._document_subscribers :=
    aupdate_of_fix _ h (by simp [hm])
  simp only [subscribe_to_document, h, Option.isSome_some, if_true, hfix]

theorem subscribe_to_document_keys_nodup (bus : EventBusState) (d : String) (cb : Nat)
    (hkeys : (bus._document_subscribers.map Prod.fst).Nodup) :
    ((subscribe_to_document bus d cb)._document_subscribers.map Prod.fst).Nodup := by
  cases h : alookup bus._document_subscribers d with
  | some l =>
      simp only [subscribe_to_document, h, Option.isSome_some, if_true]
      rw [keys_aupdate]
      exact hkeys
  | none =>
      simp only [subscribe_to_document, h, Option.isSome_none, Bool.false_eq_true,
        if_false]
      rw [keys_aupdate]
      have hd : d ∉ bus._document_subscribers.map Prod.fst :=
        not_mem_keys_of_alookup_none h
      simp [List.nodup_append, hkeys, hd, List.disjoint_singleton]

/-- C9 amended: with list-backed subscription stores — `subscribe` and
`subscribe_all` — two subscriptions of the same callback are kept as two
entries and each unsubscribe handle removes one occurrence, so after
invoking one handle the callback still receives matching events; with
the set-backed `subscribe_to_document`, however, a second subscription
of the same callback to the same document is a no-op (the state is
unchanged) and invoking either handle removes the single shared entry,
after which the callback is no longer a subscriber of that document. -/
theorem subscription_independence (bus : EventBusState) (t : EventType) (cb : Nat)
    (e : Event) (d : String)
    (het : e.event_type = t)
    (hkeys : (bus._document_subscribers.map Prod.fst).Nodup)
    (hvals : ∀ l, alookup bus._document_subscribers d = some l → l.Nodup) :
    cb ∈ callbacksToCall (unsubscribeType (subscribe (subscribe bus t cb) t cb) t cb) e ∧
    cb ∈ callbacksToCall (unsubscribeAll (subscribe_all (subscribe_all bus cb) cb) cb) e ∧
    subscribe_to_document (subscribe_to_document bus d cb) d cb
      = subscribe_to_document bus d cb ∧
    (∀ l, alookup (unsubscribeDocument
        (subscribe_to_document (subscribe_to_document bus d cb) d cb)
        d cb)._document_subscribers d = some l → cb ∉ l) := by
  have hmem_erase2 : ∀ l0 : List Nat, cb ∈ (l0 ++ [cb] ++ [cb]).erase cb := by
    intro l0
    have hcnt : 0 < ((l0 ++ [cb] ++ [cb]).erase cb).count cb := by
      rw [List.count_erase_self]
      have h2 : (l0 ++ [cb] ++ [cb]).count cb = l0.count cb + 2 := by
        simp [List.count_append]
      omega
    exact List.count_pos_iff.mp hcnt
  have hl1 := subscribe_to_document_lookup bus d cb
  have hv1mem : cb ∈ (if cb ∈ (alookup bus._document_subscribers d).getD []
      then (alookup bus._document_subscribers d).getD []
      else (alookup bus._document_subscribers d).getD [] ++ [cb]) := by
    by_cases hc : cb ∈ (alookup bus._document_subscribers d).getD []
    · simp [hc]
    · simp [hc]
  have hidem := subscribe_to_document_mem_noop
    (subscribe_to_document bus d cb) d cb _ hl1 hv1mem
  refine ⟨?_, ?_, hidem, ?_⟩
  · have h2 : alookup (subscribe (subscribe bus t cb) t cb)._subscribers t
        = some ((alookup bus._subscribers t).getD [] ++ [cb] ++ [cb]) := by
      rw [subscribe_lookup, subscribe_lookup]
      rfl
    have h3 : alookup (unsubscribeType (subscribe (subscribe bus t cb) t cb)
        t cb)._subscribers t
        = some (((alookup bus._subscribers t).getD [] ++ [cb] ++ [cb]).erase cb) := by
      show alookup (aupdate (fun l : List Nat => l.erase cb)
        (subscribe (subscribe bus t cb) t cb)._subscribers t) t = _
      rw [alookup_aupdate_self, h2]
      rfl
    unfold callbacksToCall
    rw [het, h3]
    simp only [Option.getD_some]
    exact List.mem_append_left _ (List.mem_append_left _ (hmem_erase2 _))
  · have hg : (unsubscribeAll (subscribe_all (subscribe_all bus cb) cb) cb)._global_subscribers
        = (bus._global_subscribers ++ [cb] ++ [cb]).erase cb := rfl
    have hgm : cb ∈ (unsubscribeAll (subscribe_all (subscribe_all bus cb) cb)
        cb)._global_subscribers := by
      rw [hg]
      exact hmem_erase2 _
    exact List.mem_append_right _ hgm
  · intro l hl
    rw [hidem] at hl
    have hv1nodup : (if cb ∈ (alookup bus._document_subscribers d).getD []
        then (alookup bus._document_subscribers d).getD []
        else (alookup bus._document_subscribers d).getD [] ++ [cb]).Nodup := by
      have hl0 : ((alookup bus._document_subscribers d).getD []).Nodup := by
        cases h0 : alookup bus._document_subscribers d with
        | some l0 => exact hvals l0 h0
        | none => simp
      by_cases hc : cb ∈ (alookup bus._document_subscribers d).getD []
      · simpa [hc] using hl0
      · simp [hc, List.nodup_append, hl0]
    rcases hcase : ((if cb ∈ (alookup bus._document_subscribers d).getD []
        then (alookup bus._document_subscribers d).getD []
        else (alookup bus._document_subscribers d).getD [] ++ [cb]).erase cb) with _ | ⟨x, xs⟩
    · have : alookup (unsubscribeDocument (subscribe_to_document bus d cb)
          d cb)._document_subscribers d = none := by
        simp only [unsubscribeDocument, hl1, hcase]
        exact alookup_aerase_self (subscribe_to_document_keys_nodup bus d cb hkeys)
      rw [this] at hl
      exact absurd hl (by simp)
    · have : alookup (unsubscribeDocument (subscribe_to_document bus d cb)
          d cb)._document_subscribers d = some (x :: xs) := by
        simp only [unsubscribeDocument, hl1, hcase]
        rw [if_neg (by simp)]
        rw [alookup_aupdate_self, hl1]
        simp [hcase]
      rw [this] at hl
      have hlx : l = x :: xs := by
        injection hl.symm
      rw [hlx, ← hcase]
      exact hv1nodup.not_mem_erase

/-- An event whose type matches the C9 witness subscription. -/
def w9Event : Event := ⟨EventType.VERSION_CREATED, [], none, none⟩

/-- Witness for the amended C9: on an empty bus, after subscribing
callback `5` twice (by type and globally) and revoking one handle each,
the callback still receives a matching published event. -/
theorem subscription_independence_witness :
    5 ∈ callbacksToCall (unsubscribeType (subscribe (subscribe busEmpty
      EventType.VERSION_CREATED 5) EventType.VERSION_CREATED 5)
      EventType.VERSION_CREATED 5) w9Event ∧
    5 ∈ callbacksToCall (unsubscribeAll (subscribe_all (subscribe_all busEmpty 5) 5) 5)
      w9Event := by
  have h := subscription_independence busEmpty EventType.VERSION_CREATED 5 w9Event
    "doc1" rfl (by decide) (by intro l hl; simp [alookup, busEmpty] at hl)
  exact ⟨h.1, h.2.1⟩

/-! ### C7 / C10 : connection and room registry -/

theorem mem_aupdate_nodup {κ α : Type} [DecidableEq κ] {f : α → α}
    {l : List (κ × α)} {k : κ} {p : κ × α}
    (hnd : (l.map Prod.fst).Nodup) (h : p ∈ aupdate f l k) :
    (p ∈ l ∧ p.1 ≠ k) ∨ (∃ w, alookup l k = some w ∧ p = (k, f w)) ∨
      (alookup l k = none ∧ p ∈ l) := by
  induction l with
  | nil => simp [aupdate] at h
  | cons q rest ih =>
      obtain ⟨k0, v0⟩ := q
      simp only [List.map_cons, List.nodup_cons] at hnd
      by_cases hk : k0 = k
      · subst hk
        simp only [aupdate, if_pos rfl] at h
        rcases List.mem_cons.mp h with h | h
        · exact Or.inr (Or.inl ⟨v0, by simp [alookup], h⟩)
        · have hp1 : p.1 ≠ k0 := by
            intro hcon
            exact hnd.1 (hcon ▸ List.mem_map.mpr ⟨p, h, rfl⟩)
          exact Or.inl ⟨List.mem_cons_of_mem _ h, hp1⟩
      · simp only [aupdate, if_neg hk] at h
        rcases List.mem_cons.mp h with h | h
        · subst h
          exact Or.inl ⟨List.mem_cons_self _ _, hk⟩
        · rcases ih hnd.2 h with ⟨h1, h2⟩ | ⟨w, hw, hp⟩ | ⟨hn, h1⟩
          · exact Or.inl ⟨List.mem_cons_of_mem _ h1, h2⟩
          · exact Or.inr (Or.inl ⟨w, by simp [alookup, hk, hw], hp⟩)
          · exact Or.inr (Or.inr ⟨by simp [alookup, hk, hn], List.mem_cons_of_mem _ h1⟩)

theorem disconnectRooms_noop (conns : List String) (uid : String)
    (rooms : List (String × List String))
    (hr : ∀ d ms, (d, ms) ∈ rooms → uid ∉ ms) :
    disconnectRooms conns uid rooms = (rooms, []) := by
  induction rooms with
  | nil => rfl
  | cons p rest ih =>
      obtain ⟨d, ms⟩ := p
      have hm : uid ∉ ms := hr d ms (List.mem_cons_self _ _)
      simp only [disconnectRooms, if_neg hm]
      rw [ih (fun d2 ms2 h2 => hr d2 ms2 (List.mem_cons_of_mem _ h2))]

theorem disconnectRooms_mem (conns : List String) (uid : String)
    (rooms : List (String × List String)) :
    ∀ p ∈ (disconnectRooms conns uid rooms).1,
      (p ∈ rooms ∧ uid ∉ p.2) ∨
      (∃ ms, (p.1, ms) ∈ rooms ∧ uid ∈ ms ∧ p.2 = ms.erase uid ∧ p.2 ≠ []) := by
  induction rooms with
  | nil => intro p hp; simp [disconnectRooms] at hp
  | cons q rest ih =>
      obtain ⟨d, ms⟩ := q
      intro p hp
      by_cases hm : uid ∈ ms
      · simp only [disconnectRooms, if_pos hm] at hp
        by_cases hz : ms.erase uid = []
        · rw [if_pos hz] at hp
          rcases ih p hp with ⟨h1, h2⟩ | ⟨ms2, h1, h2, h3, h4⟩
          · exact Or.inl ⟨List.mem_cons_of_mem _ h1, h2⟩
          · exact Or.inr ⟨ms2, List.mem_cons_of_mem _ h1, h2, h3, h4⟩
        · rw [if_neg hz] at hp
          rcases List.mem_cons.mp hp with h | h
          · subst h
            exact Or.inr ⟨ms, List.mem_cons_self _ _, hm, rfl, hz⟩
          · rcases ih p h with ⟨h1, h2⟩ | ⟨ms2, h1, h2, h3, h4⟩
            · exact Or.inl ⟨List.mem_cons_of_mem _ h1, h2⟩
            · exact Or.inr ⟨ms2, List.mem_cons_of_mem _ h1, h2, h3, h4⟩
      · simp only [disconnectRooms, if_neg hm] at hp
        rcases List.mem_cons.mp hp with h | h
        · subst h
          exact Or.inl ⟨List.mem_cons_self _ _, hm⟩
        · rcases ih p h with ⟨h1, h2⟩ | ⟨ms2, h1, h2, h3, h4⟩
          · exact Or.inl ⟨List.mem_cons_of_mem _ h1, h2⟩
          · exact Or.inr ⟨ms2, List.mem_cons_of_mem _ h1, h2, h3, h4⟩

theorem disconnectRooms_sends (conns : List String) (uid : String)
    (rooms : List (String × List String)) :
    ∀ d ms, (d, ms) ∈ rooms → uid ∈ ms →
      ∀ u ∈ ms.erase uid, u ≠ uid → u ∈ conns →
        (⟨u, "user_left", uid, d⟩ : WsSend) ∈ (disconnectRooms conns uid rooms).2 := by
  induction rooms with
  | nil => intro d ms h; simp at h
  | cons q rest ih =>
      obtain ⟨d0, ms0⟩ := q
      intro d ms hmem hin u hu hne hconn
      rcases List.mem_cons.mp hmem with h | h
      · have hd : d = d0 := congrArg Prod.fst h
        have hms : ms = ms0 := congrArg Prod.snd h
        subst hd
        subst hms
        simp only [disconnectRooms, if_pos hin]
        apply List.mem_append_left
        apply List.mem_flatMap.mpr
        refine ⟨u, List.mem_filter.mpr ⟨hu, by simp [hne]⟩, ?_⟩
        simp [sendToUser, hconn]
      · by_cases hm0 : uid ∈ ms0
        · simp only [disconnectRooms, if_pos hm0]
          exact List.mem_append_right _ (ih d ms h hin u hu hne hconn)
        · simp only [disconnectRooms, if_neg hm0]
          exact ih d ms h hin u hu hne hconn

theorem rooms1_lookup (st : WSState) (doc : String) :
    alookup (if (alookup st._document_rooms doc).isSome then st._document_rooms
      else st._document_rooms ++ [(doc, [])]) doc
      = some ((alookup st._document_rooms doc).getD []) := by
  cases h : alookup st._document_rooms doc with
  | some l => simp [h]
  | none =>
      simp only [h, Option.isSome_none, Bool.false_eq_true, if_false]
      rw [alookup_append, h]
      simp [alookup]

theorem rooms1_keys_nodup (st : WSState) (doc : String)
    (hkeys : (st._document_rooms.map Prod.fst).Nodup) :
    ((if (alookup st._document_rooms doc).isSome then st._document_rooms
      else st._document_rooms ++ [(doc, [])]).map Prod.fst).Nodup := by
  cases h : alookup st._document_rooms doc with
  | some l => simpa [h] using hkeys
  | none =>
      simp only [h, Option.isSome_none, Bool.false_eq_true, if_false]
      have hd : doc ∉ st._document_rooms.map Prod.fst :=
        not_mem_keys_of_alookup_none h
      simp [List.nodup_append, hkeys, hd, List.disjoint_singleton]

theorem rooms1_mem (st : WSState) (doc : String) {p : String × List String}
    (hp : p ∈ (if (alookup st._document_rooms doc).isSome then st._document_rooms
      else st._document_rooms ++ [(doc, [])]))
    (hne : p.1 ≠ doc) : p ∈ st._document_rooms := by
  by_cases h : (alookup st._document_rooms doc).isSome
  · rw [if_pos h] at hp
    exact hp
  · rw [if_neg h] at hp
    rcases List.mem_append.mp hp with h2 | h2
    · exact h2
    · exfalso
      apply hne
      have : p = (doc, []) := by simpa using h2
      rw [this]

theorem connect_preserves_inv (st : WSState) (uid uname : String) (hinv : WSInv st) :
    WSInv (connect st uid uname).1 := by
  obtain ⟨hrc, hne, hnd⟩ := hinv
  refine ⟨?_, hne, hnd⟩
  intro d ms h u hu
  have h2 := hrc d ms h u hu
  show u ∈ (if uid ∈ st._connections then st._connections
    else st._connections ++ [uid])
  by_cases hc : uid ∈ st._connections
  · rw [if_pos hc]
    exact h2
  · rw [if_neg hc]
    exact List.mem_append_left _ h2

theorem join_preserves_inv (st : WSState) (uid doc : String) (hinv : WSInv st)
    (hkeys : (st._document_rooms.map Prod.fst).Nodup)
    (hconn : uid ∈ st._connections) :
    WSInv (join_document st uid doc).1 := by
  obtain ⟨hrc, hne, hnd⟩ := hinv
  have hkeys1 := rooms1_keys_nodup st doc hkeys
  have hlook1 := rooms1_lookup st doc
  have hw_sub : ∀ u ∈ (alookup st._document_rooms doc).getD [],
      u ∈ st._connections := by
    cases h : alookup st._document_rooms doc with
    | some l =>
        intro u hu
        exact hrc doc l (alookup_mem h) u (by simpa [h] using hu)
    | none => intro u hu; simp [h] at hu
  have hw_nodup : ((alookup st._document_rooms doc).getD []).Nodup := by
    cases h : alookup st._document_rooms doc with
    | some l => simpa [h] using hnd doc l (alookup_mem h)
    | none => simp [h]
  have hch : ∀ p : String × List String,
      p ∈ (join_document st uid doc).1._document_rooms →
      (p ∈ st._document_rooms) ∨
      p = (doc, if uid ∈ (alookup st._document_rooms doc).getD []
                then (alookup st._document_rooms doc).getD []
                else (alookup st._document_rooms doc).getD [] ++ [uid]) := by
    intro p hp
    have hp' : p ∈ aupdate (fun ms => if uid ∈ ms then ms else ms ++ [uid])
        (if (alookup st._document_rooms doc).isSome then st._document_rooms
         else st._document_rooms ++ [(doc, [])]) doc := hp
    rcases mem_aupdate_nodup hkeys1 hp' with ⟨h1, h2⟩ | ⟨w, hw, hpw⟩ | ⟨hn, _⟩
    · exact Or.inl (rooms1_mem st doc h1 h2)
    · rw [hlook1] at hw
      have hw2 : w = (alookup st._document_rooms doc).getD [] :=
        (Option.some.inj hw).symm
      subst hw2
      exact Or.inr hpw
    · rw [hlook1] at hn
      exact absurd hn (by simp)
  have hv_sub : ∀ u ∈ (if uid ∈ (alookup st._document_rooms doc).getD []
      then (alookup st._document_rooms doc).getD []
      else (alookup st._document_rooms doc).getD [] ++ [uid]),
      u ∈ st._connections := by
    by_cases hc : uid ∈ (alookup st._document_rooms doc).getD []
    · rw [if_pos hc]
      exact hw_sub
    · rw [if_neg hc]
      intro u hu
      rcases List.mem_append.mp hu with h | h
      · exact hw_sub u h
      · have : u = uid := by simpa using h
        rw [this]
        exact hconn
  have hv_ne : (if uid ∈ (alookup st._document_rooms doc).getD []
      then (alookup st._document_rooms doc).getD []
      else (alookup st._document_rooms doc).getD [] ++ [uid]) ≠ [] := by
    by_cases hc : uid ∈ (alookup st._document_rooms doc).getD []
    · rw [if_pos hc]
      exact List.ne_nil_of_mem hc
    · rw [if_neg hc]
      simp
  have hv_nodup : (if uid ∈ (alookup st._document_rooms doc).getD []
      then (alookup st._document_rooms doc).getD []
      else (alookup st._document_rooms doc).getD [] ++ [uid]).Nodup := by
    by_cases hc : uid ∈ (alookup st._document_rooms doc).getD []
    · rw [if_pos hc]
      exact hw_nodup
    · rw [if_neg hc]
      simp [List.nodup_append, hw_nodup, hc]
  refine ⟨?_, ?_, ?_⟩ <;> intro d ms hm
  · intro u hu
    show u ∈ st._connections
    rcases hch (d, ms) hm with h | h
    · exact hrc d ms h u hu
    · have hms : ms = (if uid ∈ (alookup st._document_rooms doc).getD []
          then (alookup st._document_rooms doc).getD []
          else (alookup st._document_rooms doc).getD [] ++ [uid]) :=
        congrArg Prod.snd h
      exact hv_sub u (hms ▸ hu)
  · rcases hch (d, ms) hm with h | h
    · exact hne d ms h
    · have hms : ms = (if uid ∈ (alookup st._document_rooms doc).getD []
          then (alookup st._document_rooms doc).getD []
          else (alookup st._document_rooms doc).getD [] ++ [uid]) :=
        congrArg Prod.snd h
      rw [hms]
      exact hv_ne
  · rcases hch (d, ms) hm with h | h
    · exact hnd d ms h
    · have hms : ms = (if uid ∈ (alookup st._document_rooms doc).getD []
          then (alookup st._document_rooms doc).getD []
          else (alookup st._document_rooms doc).getD [] ++ [uid]) :=
        congrArg Prod.snd h
      rw [hms]
      exact hv_nodup

theorem leave_document_none (st : WSState) (uid doc : String)
    (h : alookup st._document_rooms doc = none) :
    leave_document st uid doc = (st, []) := by
  unfold leave_document
  rw [h]

theorem leave_document_some (st : WSState) (uid doc : String) (ms0 : List String)
    (h : alookup st._document_rooms doc = some ms0) :
    (leave_document st uid doc).1._document_rooms
      = (if ms0.erase uid = [] then aerase st._document_rooms doc
         else aupdate (fun _ => ms0.erase uid) st._document_rooms doc) ∧
    (leave_document st uid doc).1._connections = st._connections := by
  unfold leave_document
  rw [h]
  exact ⟨rfl, rfl⟩

theorem leave_preserves_inv (st : WSState) (uid doc : String) (hinv : WSInv st) :
    WSInv (leave_document st uid doc).1 := by
  obtain ⟨hrc, hne, hnd⟩ := hinv
  cases h : alookup st._document_rooms doc with
  | none =>
      rw [leave_document_none st uid doc h]
      exact ⟨hrc, hne, hnd⟩
  | some ms0 =>
      obtain ⟨hrooms, hconns⟩ := leave_document_some st uid doc ms0 h
      have hms0 : (doc, ms0) ∈ st._document_rooms := alookup_mem h
      by_cases hz : ms0.erase uid = []
      · refine ⟨?_, ?_, ?_⟩ <;> intro d ms hm <;>
          rw [hrooms, if_pos hz] at hm
        · intro u hu
          rw [hconns]
          exact hrc d ms (mem_aerase hm) u hu
        · exact hne d ms (mem_aerase hm)
        · exact hnd d ms (mem_aerase hm)
      · refine ⟨?_, ?_, ?_⟩ <;> intro d ms hm <;>
          rw [hrooms, if_neg hz] at hm
        · intro u hu
          rw [hconns]
          rcases mem_aupdate hm with h1 | ⟨w, _, hp2⟩
          · exact hrc d ms h1 u hu
          · have hms : ms = ms0.erase uid := congrArg Prod.snd hp2
            exact hrc doc ms0 hms0 u (List.erase_subset _ _ (hms ▸ hu))
        · rcases mem_aupdate hm with h1 | ⟨w, _, hp2⟩
          · exact hne d ms h1
          · have hms : ms = ms0.erase uid := congrArg Prod.snd hp2
            rw [hms]
            exact hz
        · rcases mem_aupdate hm with h1 | ⟨w, _, hp2⟩
          · exact hnd d ms h1
          · have hms : ms = ms0.erase uid := congrArg Prod.snd hp2
            rw [hms]
            exact (hnd doc ms0 hms0).erase uid

theorem disconnect_spec (st : WSState) (uid : String) (hinv : WSInv st) :
    WSInv (disconnect st uid).1 ∧
    (∀ d ms, (d, ms) ∈ (disconnect st uid).1._document_rooms → uid ∉ ms) ∧
    (∀ d ms, (d, ms) ∈ st._document_rooms → uid ∈ ms →
      ∀ u ∈ ms.erase uid,
        (⟨u, "user_left", uid, d⟩ : WsSend) ∈ (disconnect st uid).2) := by
  obtain ⟨hrc, hne, hnd⟩ := hinv
  have hrooms : (disconnect st uid).1._document_rooms
      = (disconnectRooms st._connections uid st._document_rooms).1 := rfl
  have hconns : (disconnect st uid).1._connections
      = st._connections.erase uid := rfl
  have hsends : (disconnect st uid).2
      = (disconnectRooms st._connections uid st._document_rooms).2 := rfl
  refine ⟨⟨?_, ?_, ?_⟩, ?_, ?_⟩
  · intro d ms hm u hu
    rw [hrooms] at hm
    rw [hconns]
    rcases disconnectRooms_mem _ _ _ _ hm with ⟨h1, h2⟩ | ⟨ms2, h1, h2, h3, _⟩
    · have hu2 := hrc d ms h1 u hu
      have hneu : u ≠ uid := fun he => h2 (he ▸ hu)
      exact (List.mem_erase_of_ne hneu).mpr hu2
    · have hms : ms = ms2.erase uid := h3
      have hu2 : u ∈ ms2 := List.erase_subset _ _ (hms ▸ hu)
      have hcon := hrc d ms2 h1 u hu2
      have hnodup2 := hnd d ms2 h1
      have hneu : u ≠ uid := by
        intro he
        rw [hms, he] at hu
        exact hnodup2.not_mem_erase hu
      exact (List.mem_erase_of_ne hneu).mpr hcon
  · intro d ms hm
    rw [hrooms] at hm
    rcases disconnectRooms_mem _ _ _ _ hm with ⟨h1, _⟩ | ⟨ms2, _, _, _, h4⟩
    · exact hne d ms h1
    · exact h4
  · intro d ms hm
    rw [hrooms] at hm
    rcases disconnectRooms_mem _ _ _ _ hm with ⟨h1, _⟩ | ⟨ms2, h1, _, h3, _⟩
    · exact hnd d ms h1
    · have hms : ms = ms2.erase uid := h3
      rw [hms]
      exact (hnd d ms2 h1).erase uid
  · intro d ms hm
    rw [hrooms] at hm
    rcases disconnectRooms_mem _ _ _ _ hm with ⟨_, h2⟩ | ⟨ms2, h1, _, h3, _⟩
    · exact h2
    · have hms : ms = ms2.erase uid := h3
      rw [hms]
      exact (hnd d ms2 h1).not_mem_erase
  · intro d ms hm hin u hu
    rw [hsends]
    have hnodup := hnd d ms hm
    have hneu : u ≠ uid := fun he => hnodup.not_mem_erase (he ▸ hu)
    have hconn : u ∈ st._connections :=
      hrc d ms hm u (List.erase_subset _ _ hu)
    exact disconnectRooms_sends _ _ _ d ms hm hin u hu hneu hconn

/-- C7 : the registry invariant — every room member is a connected user
and no empty room stays in the index (together with the set-ness of the
member lists) — is preserved by `connect`, by `join_document` when the
joining user is connected (which the endpoint guarantees, having called
`connect` first), by `leave_document` and by `disconnect`; moreover
`disconnect` removes the user from every room it belonged to and pushes
a `user_left` notification to every remaining member of each such
room. -/
theorem registry_invariant_maintained (st : WSState) (uid uname doc : String)
    (hinv : WSInv st) (hkeys : (st._document_rooms.map Prod.fst).Nodup) :
    WSInv (connect st uid uname).1 ∧
    (uid ∈ st._connections → WSInv (join_document st uid doc).1) ∧
    WSInv (leave_document st uid doc).1 ∧
    WSInv (disconnect st uid).1 ∧
    (∀ d ms, (d, ms) ∈ (disconnect st uid).1._document_rooms → uid ∉ ms) ∧
    (∀ d ms, (d, ms) ∈ st._document_rooms → uid ∈ ms →
      ∀ u ∈ ms.erase uid,
        (⟨u, "user_left", uid, d⟩ : WsSend) ∈ (disconnect st uid).2) :=
  ⟨connect_preserves_inv st uid uname hinv,
   fun hconn => join_preserves_inv st uid doc hinv hkeys hconn,
   leave_preserves_inv st uid doc hinv,
   (disconnect_spec st uid hinv).1,
   (disconnect_spec st uid hinv).2.1,
   (disconnect_spec st uid hinv).2.2⟩

/-- A registry with two connected users sharing room `"doc1"`. -/
def w7State : WSState :=
  ⟨["u1", "u2"], [("doc1", ["u1", "u2"])], [("u1", "alice"), ("u2", "bob")]⟩

/-- Witness for C7: disconnecting `"u1"` from the concrete registry
notifies the remaining member `"u2"` of room `"doc1"`, and the room left
behind no longer holds `"u1"`. -/
theorem registry_invariant_witness :
    (⟨"u2", "user_left", "u1", "doc1"⟩ : WsSend) ∈ (disconnect w7State "u1").2 ∧
    "u1" ∉ ["u2"] := by
  have hinv : WSInv w7State := by
    refine ⟨?_, ?_, ?_⟩ <;> intro d ms h <;> simp [w7State] at h <;>
      rw [h.2] <;> decide
  have h := registry_invariant_maintained w7State "u1" "alice" "doc1" hinv
    (by decide)
  exact ⟨h.2.2.2.2.2 "doc1" ["u1", "u2"] (by decide) (by decide) "u2" (by decide),
    h.2.2.2.2.1 "doc1" ["u2"] (by decide)⟩

/-- C10 : for a user id with no connection, no user-info entry and no
room membership, `disconnect` leaves the whole registry unchanged and
sends nothing — and, being a total function built from `dict.pop` with
defaults and `set.discard`, it raises nothing. The endpoint cleanup
path relies on this idempotence. -/
theorem disconnect_unknown_noop (st : WSState) (uid : String)
    (hc : uid ∉ st._connections)
    (hr : ∀ d ms, (d, ms) ∈ st._document_rooms → uid ∉ ms)
    (hu : alookup st._user_info uid = none) :
    disconnect st uid = (st, []) := by
  have h1 : disconnect st uid
      = (⟨st._connections.erase uid,
          (disconnectRooms st._connections uid st._document_rooms).1,
          aerase st._user_info uid⟩,
         (disconnectRooms st._connections uid st._document_rooms).2) := rfl
  rw [h1, disconnectRooms_noop st._connections uid st._document_rooms hr,
    List.erase_of_not_mem hc, aerase_of_none hu]

/-- A registry in which `"ghost"` is entirely unknown. -/
def w10State : WSState := ⟨["u2"], [("doc1", ["u2"])], [("u2", "bob")]⟩

/-- Witness for C10: disconnecting the unknown `"ghost"` is a no-op. -/
theorem disconnect_unknown_noop_witness :
    disconnect w10State "ghost" = (w10State, []) := by
  apply disconnect_unknown_noop
  · decide
  · intro d ms h
    simp [w10State] at h
    rw [h.2]
    decide
  · decide

end Spec2Proof
